import Mathlib

/-!
Verification of the graph-assembly engine of the `onnx-graph` crate
(`src/crates/onnx-graph/src/lib.rs`, `src/crates/onnx-graph/src/node.rs`).

The Rust code builds an ONNX `ModelProto` out of a caller-constructed graph of
reference-counted `Tensor` / `Node` trait objects, where object identity is
address identity (`node.rs`, the `PartialEq`/`Hash` impls on `&dyn Node`
compare addresses).  Following the design note of the specification we embed
the heap as an arena: every `Value`/`Operation` allocation is one entry of a
list of `Obj`, and its list index plays the role of its address.  A single
allocation that implements both `Tensor` and `Node` (a single-output operator)
is a single arena entry used in both roles, exactly as one Rust allocation
serves both trait objects.

Rust `HashSet` / `HashMap` are modelled by `Finset` (membership semantics) and
by association lists whose lookup returns the most recently inserted binding
(the observable behaviour of `HashMap::insert`).  Iteration order of a Rust
`HashSet` is unspecified; wherever `build_proto` iterates over one of the two
collected sets we therefore take the iteration order as an explicit list
parameter, and the theorems quantify over every list that enumerates the
corresponding set.

`tensor.rs`, `weights.rs` and `operators.rs` of the crate are not part of the
given sources; definitions that come from those files are marked
`Modelled from the spec:` in their doc comment and follow the specification's
words.  Everything else is translated from the two given Rust files.
-/

/-- Data type of one tensor (`DType` in `tensor.rs`, missing source; only the
identity of the values matters for the assembly engine). -/
inductive DType where
  | f32
  | f16
  | i64
  | i32
  | u8
deriving DecidableEq, Repr

/-- Modelled from the spec: one dimension of a shape is "a known integer, a
symbolic name, or unresolved" (spec section 3; `Dimension` of the missing
`tensor.rs`). -/
inductive Dimension where
  | known (n : Nat)
  | symbolic (s : String)
  | unresolved
deriving DecidableEq, Repr

/-- Modelled from the spec: a shape is an ordered list of dimensions. -/
def Shape : Type := List Dimension
deriving DecidableEq

/-- dtype/shape information a tensor exposes (spec section 4.1: "Every Value
exposes dtype, shape, ..."). -/
structure TInfo where
  dtype : DType
  shape : Shape
deriving DecidableEq

/-- The error enumeration of `lib.rs` (lines 18-50); only the variants the
assembly engine itself can produce are listed, the catalog-surfaced ones are
kept for completeness of the taxonomy. -/
inductive Error where
  | inputShapeError
  | shapeMismatchError
  | incompatibleShapeError
  | dtypeMismatchError
  | nameConflictError (name : String)
  | unresolvedDimensionError
  | unsupportedDTypeError
  | ioError
deriving DecidableEq, Repr

/-- One arena entry: a `Value` and/or `Operation` allocation of the Rust heap.

* `leaf`: a tensor with no producing operation (an `InputTensor` or a constant
  weight tensor; spec section 3: "Weight payload ... attached to a leaf Value
  with no producing operation").  `data` is the optional raw byte payload.
* `singleOp`: one allocation implementing both `SingleOutputNode` and
  `Tensor`: the operation and its single output value are the same object.
* `multiOp`: a `MultiOutputNode` (an operation only).  `outs` lists the arena
  indices of its per-slot output values, `outInfos` the per-slot dtype/shape
  (`get_output_dtype` / `get_output_shape`, `node.rs` lines 81-87).
* `multiSlot`: a `MultiOutputNodeOutput` (`node.rs` lines 89-120): a value
  holding a reference to the owning operation plus an output-slot index. -/
inductive Obj where
  | leaf (nm : Option String) (info : TInfo) (data : Option (List Nat))
  | singleOp (nm : Option String) (opType : String) (inputs : List Nat) (info : TInfo)
  | multiOp (nm : Option String) (opType : String) (inputs : List Nat) (outs : List Nat)
      (outInfos : List TInfo)
  | multiSlot (parent : Nat) (slot : Nat)
deriving DecidableEq

/-- The arena of all graph objects; an object's index is its identity
(address-identity of the Rust trait objects). -/
structure Graph where
  objs : List Obj
deriving DecidableEq

/-- The allocation at index `i`, if any. -/
def Graph.objAt (g : Graph) (i : Nat) : Option Obj :=
  g.objs.get? i

/-- `Node::get_input_tensors` / the ordered input values of an operation
(`node.rs` line 10; empty for anything that is not an operation). -/
def get_input_tensors (g : Graph) (i : Nat) : List Nat :=
  match g.objAt i with
  | some (.singleOp _ _ inputs _) => inputs
  | some (.multiOp _ _ inputs _ _) => inputs
  | _ => []

/-- `Node::get_output_tensors` (`node.rs` line 37): a single-output operation
is its own output value; a multi-output operation lists its slot values. -/
def get_output_tensors (g : Graph) (i : Nat) : List Nat :=
  match g.objAt i with
  | some (.singleOp _ _ _ _) => [i]
  | some (.multiOp _ _ _ outs _) => outs
  | _ => []

/-- `get_name` of an allocation: `Node::get_name` and `Tensor::get_name` both
read the allocation's optional explicit name (a `MultiOutputNodeOutput` has no
name field, `node.rs` lines 89-98, so its `get_name` is `None`). -/
def get_name (g : Graph) (i : Nat) : Option String :=
  match g.objAt i with
  | some (.leaf nm _ _) => nm
  | some (.singleOp nm _ _ _) => nm
  | some (.multiOp nm _ _ _ _) => nm
  | _ => none

/-- The operation a value is produced by: a single-output operator produces
itself (same allocation); a `MultiOutputNodeOutput` points at its parent
(`node.rs` lines 109-115); leaves have no producer. -/
def producer (g : Graph) (i : Nat) : Option Nat :=
  match g.objAt i with
  | some (.singleOp _ _ _ _) => some i
  | some (.multiSlot parent _) => some parent
  | _ => none

/-- The parent of a `MultiOutputNodeOutput`, if the object is one. -/
def slot_parent (g : Graph) (i : Nat) : Option Nat :=
  match g.objAt i with
  | some (.multiSlot parent _) => some parent
  | _ => none

/-- The constant byte payload owned by a leaf value, if any. -/
def leaf_data (g : Graph) (i : Nat) : Option (List Nat) :=
  match g.objAt i with
  | some (.leaf _ _ data) => data
  | _ => none

/-- Modelled from the spec: dtype/shape of a value; a `MultiOutputNodeOutput`
derives them on demand from the parent's per-slot accessors (`node.rs` lines
100-107). -/
def tensor_info (g : Graph) (i : Nat) : TInfo :=
  match g.objAt i with
  | some (.leaf _ info _) => info
  | some (.singleOp _ _ _ info) => info
  | some (.multiSlot parent slot) =>
    match g.objAt parent with
    | some (.multiOp _ _ _ _ outInfos) => outInfos.getD slot ⟨.f32, []⟩
    | _ => ⟨.f32, []⟩
  | _ => ⟨.f32, []⟩

/-- `Node::get_onnx_type` (`node.rs` line 44). -/
def get_onnx_type (g : Graph) (i : Nat) : String :=
  match g.objAt i with
  | some (.singleOp _ opType _ _) => opType
  | some (.multiOp _ opType _ _ _) => opType
  | _ => ""

/-- `Node::get_onnx_domain` (`node.rs` lines 45-47). -/
def get_onnx_domain : String := "ai.onnx"

/-- Well-formedness of the arena, the "acyclic by construction" invariant of
the spec (section 3): an allocation only references allocations built before
it, i.e. with a smaller index.  A `Bool`-valued check so that concrete graphs
can be validated by evaluation. -/
def wf_check (g : Graph) : Bool :=
  (List.range g.objs.length).all fun i =>
    ((get_input_tensors g i).all fun j => decide (j < i)) &&
    (match slot_parent g i with
     | some p => decide (p < i)
     | none => true)

/-- The well-formedness proposition used by the theorems. -/
def WF (g : Graph) : Prop := wf_check g = true

theorem wf_input_lt {g : Graph} (h : WF g) {i j : Nat}
    (hj : j ∈ get_input_tensors g i) : j < i := by
  by_cases hi : i < g.objs.length
  · have h1 := (List.all_eq_true.mp h) i (List.mem_range.mpr hi)
    rw [Bool.and_eq_true] at h1
    exact of_decide_eq_true ((List.all_eq_true.mp h1.1) j hj)
  · have : g.objAt i = none := by
      simp [Graph.objAt, List.get?_eq_none]
      omega
    simp [get_input_tensors, this] at hj

theorem wf_slot_parent_lt {g : Graph} (h : WF g) {i p : Nat}
    (hp : slot_parent g i = some p) : p < i := by
  by_cases hi : i < g.objs.length
  · have h1 := (List.all_eq_true.mp h) i (List.mem_range.mpr hi)
    rw [Bool.and_eq_true] at h1
    have h2 := h1.2
    rw [hp] at h2
    exact of_decide_eq_true h2
  · have : g.objAt i = none := by
      simp [Graph.objAt, List.get?_eq_none]
      omega
    simp [slot_parent, this] at hp

theorem producer_le {g : Graph} (h : WF g) {i p : Nat}
    (hp : producer g i = some p) : p ≤ i := by
  unfold producer at hp
  cases ho : g.objAt i with
  | none => rw [ho] at hp; exact absurd hp (by simp)
  | some o =>
    rw [ho] at hp
    cases o with
    | leaf nm info data => simp at hp
    | singleOp nm t inputs info => simp at hp; omega
    | multiOp nm t inputs outs infos => simp at hp
    | multiSlot parent slot =>
      simp at hp
      have : slot_parent g i = some parent := by simp [slot_parent, ho]
      have := wf_slot_parent_lt h this
      omega

theorem producer_input_lt {g : Graph} (h : WF g) {i p j : Nat}
    (hp : producer g i = some p) (hj : j ∈ get_input_tensors g p) : j < i := by
  have h1 := wf_input_lt h hj
  have h2 := producer_le h hp
  omega

/-! ### Decimal formatting of the generated tensor names

`build_proto` generates fresh names with `format!("tensor_{}", next_tensor_id)`
(`lib.rs` line 124).  `decDigits` is decimal conversion written with structural
fuel so that concrete names evaluate by kernel reduction. -/

/-- Little-endian decimal digits of `n` (fuel-driven; `fuel > n` suffices). -/
def decDigits (fuel n : Nat) : List Nat :=
  match fuel with
  | 0 => []
  | f + 1 => if n < 10 then [n] else (n % 10) :: decDigits f (n / 10)

/-- Decimal string of a natural number, as `format!("{}", n)` prints it. -/
def natStr (n : Nat) : String :=
  String.mk (((decDigits (n + 1) n).reverse).map Nat.digitChar)

/-- The name generated for counter value `k`: `format!("tensor_{}", k)`. -/
def tensorName (k : Nat) : String := "tensor_" ++ natStr k

theorem decDigits_lt_ten {fuel n : Nat} : ∀ d ∈ decDigits fuel n, d < 10 := by
  induction fuel generalizing n with
  | zero => simp [decDigits]
  | succ f ih =>
    intro d hd
    unfold decDigits at hd
    by_cases h : n < 10
    · simp [h] at hd; omega
    · simp [h] at hd
      rcases hd with h1 | h2
      · omega
      · exact ih _ h2

theorem decDigits_fuel_irrel {a b n : Nat} (ha : n < a) (hb : n < b) :
    decDigits a n = decDigits b n := by
  induction a generalizing b n with
  | zero => omega
  | succ f ih =>
    cases b with
    | zero => omega
    | succ b' =>
      unfold decDigits
      by_cases h : n < 10
      · simp [h]
      · simp [h]
        have hn : 0 < n := by omega
        have : n / 10 < n := Nat.div_lt_self hn (by omega)
        exact ih (by omega) (by omega)

theorem decDigits_ne_nil {fuel n : Nat} (h : n < fuel) : decDigits fuel n ≠ [] := by
  cases fuel with
  | zero => omega
  | succ f =>
    unfold decDigits
    by_cases hn : n < 10 <;> simp [hn]

theorem decDigits_inj {a b m n : Nat} (ha : m < a) (hb : n < b)
    (h : decDigits a m = decDigits b n) : m = n := by
  induction a generalizing b m n with
  | zero => omega
  | succ f ih =>
    cases b with
    | zero => omega
    | succ b' =>
    unfold decDigits at h
    by_cases hm : m < 10 <;> by_cases hn : n < 10
    · simp [hm, hn] at h; exact h
    · simp [hm, hn] at h
      exfalso
      have hnz : 0 < n := by omega
      have hdiv : n / 10 < n := Nat.div_lt_self hnz (by omega)
      have := @decDigits_ne_nil b' (n / 10) (by omega)
      rcases h with ⟨_, h2⟩
      exact this h2
    · simp [hm, hn] at h
      exfalso
      have hmz : 0 < m := by omega
      have hdiv : m / 10 < m := Nat.div_lt_self hmz (by omega)
      have := @decDigits_ne_nil f (m / 10) (by omega)
      rcases h with ⟨_, h2⟩
      exact this h2
    · simp [hm, hn] at h
      rcases h with ⟨h1, h2⟩
      have hmz : 0 < m := by omega
      have hnz : 0 < n := by omega
      have hdm : m / 10 < m := Nat.div_lt_self hmz (by omega)
      have hdn : n / 10 < n := Nat.div_lt_self hnz (by omega)
      have heq : m / 10 = n / 10 := ih (by omega) (by omega) h2
      have em := Nat.div_add_mod m 10
      have en := Nat.div_add_mod n 10
      omega

theorem digitChar_inj {a b : Nat} (ha : a < 10) (hb : b < 10)
    (h : Nat.digitChar a = Nat.digitChar b) : a = b := by
  interval_cases a <;> interval_cases b <;> simp_all [Nat.digitChar]

theorem map_digitChar_inj {l1 l2 : List Nat} (h1 : ∀ d ∈ l1, d < 10)
    (h2 : ∀ d ∈ l2, d < 10) (h : l1.map Nat.digitChar = l2.map Nat.digitChar) :
    l1 = l2 := by
  induction l1 generalizing l2 with
  | nil => cases l2 <;> simp_all
  | cons a t ih =>
    cases l2 with
    | nil => simp_all
    | cons b t2 =>
      simp at h
      rcases h with ⟨hab, ht⟩
      have : a = b := digitChar_inj (h1 a (by simp)) (h2 b (by simp)) hab
      subst this
      have := ih (fun d hd => h1 d (by simp [hd])) (fun d hd => h2 d (by simp [hd])) ht
      simp [this]

theorem natStr_inj {m n : Nat} (h : natStr m = natStr n) : m = n := by
  unfold natStr at h
  have hdata : (((decDigits (m + 1) m).reverse).map Nat.digitChar) =
      (((decDigits (n + 1) n).reverse).map Nat.digitChar) := by
    injection h
  have hrev : (decDigits (m + 1) m).reverse = (decDigits (n + 1) n).reverse :=
    map_digitChar_inj
      (fun d hd => decDigits_lt_ten d (List.mem_reverse.mp hd))
      (fun d hd => decDigits_lt_ten d (List.mem_reverse.mp hd)) hdata
  have : decDigits (m + 1) m = decDigits (n + 1) n :=
    List.reverse_injective hrev
  exact decDigits_inj (Nat.lt_succ_self m) (Nat.lt_succ_self n) this

theorem tensorName_inj {m n : Nat} (h : tensorName m = tensorName n) : m = n := by
  unfold tensorName at h
  have hdata : ("tensor_".data ++ (natStr m).data) = ("tensor_".data ++ (natStr n).data) := by
    have h1 : ("tensor_" ++ natStr m).data = ("tensor_" ++ natStr n).data := by
      rw [h]
    simpa [String.data_append] using h1
  have : (natStr m).data = (natStr n).data := List.append_cancel_left hdata
  have hs : natStr m = natStr n := by
    cases hm : natStr m; cases hn : natStr n
    rw [hm, hn] at this
    simp at this
    simp [this]
  exact natStr_inj hs

/-! ### Reachability traversal

`Node::get_nodes` / `Node::get_tensors` (`node.rs` lines 14-35) and
`MultiOutputNodeOutput::get_nodes` / `get_sub_tensors` (`node.rs` lines
109-119) walk the graph backward through operation inputs, memoizing by
identity in a `HashSet`.  The recursion is modelled with structural fuel; for
a well-formed arena, fuel `g.objs.length` is enough because every recursive
call strictly decreases the index. -/

/-- Input values of the operation producing value `t` (empty for a leaf):
the list `get_sub_tensors` / `get_nodes` iterate over. -/
def producer_inputs (g : Graph) (t : Nat) : List Nat :=
  match producer g t with
  | some p => get_input_tensors g p
  | none => []

/-- `Tensor::get_nodes`: a single-output operator runs `Node::get_nodes`
(`node.rs` 14-20: if the node is unvisited, expand its inputs, then insert
it); a `MultiOutputNodeOutput` does the same with its parent (`node.rs`
109-115); a leaf contributes nothing (modelled from the spec: leaves have no
producing operation). -/
def tensor_get_nodes (g : Graph) : Nat → Nat → Finset Nat → Finset Nat
  | 0, _, tbl => tbl
  | fuel + 1, t, tbl =>
    match producer g t with
    | none => tbl
    | some p =>
      if p ∈ tbl then tbl
      else insert p ((get_input_tensors g p).foldl (fun a j => tensor_get_nodes g fuel j a) tbl)

/-- `Tensor::get_sub_tensors`: a single-output operator runs
`Node::get_tensors` (`node.rs` 28-35: for every input not yet visited, insert
it and recurse into its sub-tensors); a `MultiOutputNodeOutput` delegates to
`parent.get_tensors` (`node.rs` 117-119); a leaf contributes nothing. -/
def tensor_get_sub_tensors (g : Graph) : Nat → Nat → Finset Nat → Finset Nat
  | 0, _, tbl => tbl
  | fuel + 1, t, tbl =>
    (producer_inputs g t).foldl
      (fun a j => if j ∈ a then a else tensor_get_sub_tensors g fuel j (insert j a)) tbl

/-- `lib.rs` lines 75-79: collect all operations reachable from the declared
outputs. -/
def collect_nodes (g : Graph) (outputs : List (String × Nat)) : Finset Nat :=
  outputs.foldl (fun tbl pr => tensor_get_nodes g g.objs.length pr.2 tbl) ∅

/-- `lib.rs` lines 92-97: collect all values reachable from the declared
outputs (each output value is inserted itself, then its sub-tensors). -/
def collect_tensors (g : Graph) (outputs : List (String × Nat)) : Finset Nat :=
  outputs.foldl (fun tbl pr => tensor_get_sub_tensors g g.objs.length pr.2 (insert pr.2 tbl)) ∅

/-- The operations transitively reachable from a value: its producer, and
everything reachable from the producer's inputs. -/
inductive NReach (g : Graph) : Nat → Nat → Prop where
  | producer {t p : Nat} : producer g t = some p → NReach g t p
  | step {t p j q : Nat} : producer g t = some p → j ∈ get_input_tensors g p →
      NReach g j q → NReach g t q

/-- The values transitively reachable from a value `t` (excluding `t`
itself): the inputs of its producer, and everything reachable from them. -/
inductive TReach (g : Graph) : Nat → Nat → Prop where
  | input {t p j : Nat} : producer g t = some p → j ∈ get_input_tensors g p →
      TReach g t j
  | step {t p j x : Nat} : producer g t = some p → j ∈ get_input_tensors g p →
      TReach g j x → TReach g t x

theorem treach_none {g : Graph} {t x : Nat} (hp : producer g t = none) :
    ¬ TReach g t x := by
  intro h
  cases h with
  | input h1 _ => rw [hp] at h1; exact Option.noConfusion h1
  | step h1 _ _ => rw [hp] at h1; exact Option.noConfusion h1

theorem nreach_none {g : Graph} {t q : Nat} (hp : producer g t = none) :
    ¬ NReach g t q := by
  intro h
  cases h with
  | producer h1 => rw [hp] at h1; exact Option.noConfusion h1
  | step h1 _ _ => rw [hp] at h1; exact Option.noConfusion h1

theorem treach_iff {g : Graph} {t p x : Nat} (hp : producer g t = some p) :
    TReach g t x ↔ ∃ j ∈ get_input_tensors g p, x = j ∨ TReach g j x := by
  constructor
  · intro h
    cases h with
    | input h1 hj =>
      rw [hp] at h1
      obtain rfl := Option.some.inj h1
      exact ⟨x, hj, Or.inl rfl⟩
    | step h1 hj hr =>
      rw [hp] at h1
      obtain rfl := Option.some.inj h1
      rename_i j
      exact ⟨j, hj, Or.inr hr⟩
  · rintro ⟨j, hj, rfl | hr⟩
    · exact TReach.input hp hj
    · exact TReach.step hp hj hr

theorem nreach_iff {g : Graph} {t p q : Nat} (hp : producer g t = some p) :
    NReach g t q ↔ q = p ∨ ∃ j ∈ get_input_tensors g p, NReach g j q := by
  constructor
  · intro h
    cases h with
    | producer h1 =>
      rw [hp] at h1
      exact Or.inl (Option.some.inj h1).symm
    | step h1 hj hr =>
      rw [hp] at h1
      obtain rfl := Option.some.inj h1
      rename_i j
      exact Or.inr ⟨j, hj, hr⟩
  · rintro (rfl | ⟨j, hj, hr⟩)
    · exact NReach.producer hp
    · exact NReach.step hp hj hr

theorem treach_lt {g : Graph} (hwf : WF g) {t x : Nat} (h : TReach g t x) : x < t := by
  induction h with
  | input h1 hj => exact producer_input_lt hwf h1 hj
  | step h1 hj _ ih =>
    have := producer_input_lt hwf h1 hj
    omega

theorem treach_trans {g : Graph} {a b c : Nat} (h1 : TReach g a b)
    (h2 : TReach g b c) : TReach g a c := by
  induction h1 with
  | input hp hj => exact TReach.step hp hj h2
  | step hp hj _ ih => exact TReach.step hp hj (ih h2)

theorem treach_irrefl {g : Graph} (hwf : WF g) (t : Nat) : ¬ TReach g t t := by
  intro h
  have := treach_lt hwf h
  omega

/-- A visited set is closed for the node traversal when every member's whole
reachable-node cone is already inside; `get_nodes` inserts an operation only
after expanding its inputs, so the invariant is maintained. -/
def NClosed (g : Graph) (tbl : Finset Nat) : Prop :=
  ∀ q ∈ tbl, ∀ j ∈ get_input_tensors g q, ∀ x, NReach g j x → x ∈ tbl

/-- A visited set for the value traversal is closed up to a pending set `P`
(the values whose expansion is currently underway on the recursion stack). -/
def TClosed (g : Graph) (tbl : Finset Nat) (P : Set Nat) : Prop :=
  ∀ y ∈ tbl, y ∈ P ∨ ∀ z, TReach g y z → z ∈ tbl

theorem objAt_none_of_ge {g : Graph} {t : Nat} (h : g.objs.length ≤ t) :
    g.objAt t = none := by
  simp [Graph.objAt, List.get?_eq_none]
  omega

theorem producer_none_of_objAt_none {g : Graph} {t : Nat} (h : g.objAt t = none) :
    producer g t = none := by
  simp [producer, h]

/-- Memoization correctness of the node traversal: starting from a closed
visited set, `get_nodes` adds exactly the operations reachable from `t`, and
the result is closed again. -/
theorem tensor_get_nodes_spec {g : Graph} (hwf : WF g) :
    ∀ fuel t tbl, (t < fuel ∨ g.objAt t = none) → NClosed g tbl →
      (∀ x, x ∈ tensor_get_nodes g fuel t tbl ↔ x ∈ tbl ∨ NReach g t x) ∧
      NClosed g (tensor_get_nodes g fuel t tbl) := by
  intro fuel
  induction fuel with
  | zero =>
    intro t tbl ht hcl
    have hnone : g.objAt t = none := by
      rcases ht with h | h
      · omega
      · exact h
    have hp := producer_none_of_objAt_none hnone
    constructor
    · intro x
      simp only [tensor_get_nodes]
      exact ⟨Or.inl, fun h => by
        rcases h with h | h
        · exact h
        · exact absurd h (nreach_none hp)⟩
    · simpa only [tensor_get_nodes] using hcl
  | succ fuel ih =>
    intro t tbl ht hcl
    cases hp : producer g t with
    | none =>
      constructor
      · intro x
        simp only [tensor_get_nodes, hp]
        exact ⟨Or.inl, fun h => by
          rcases h with h | h
          · exact h
          · exact absurd h (nreach_none hp)⟩
      · simpa only [tensor_get_nodes, hp] using hcl
    | some p =>
      by_cases hmem : p ∈ tbl
      · constructor
        · intro x
          simp only [tensor_get_nodes, hp, if_pos hmem]
          refine ⟨Or.inl, fun h => ?_⟩
          rcases h with h | h
          · exact h
          · rcases (nreach_iff hp).mp h with rfl | ⟨j, hj, hr⟩
            · exact hmem
            · exact hcl p hmem j hj x hr
        · simpa only [tensor_get_nodes, hp, if_pos hmem] using hcl
      · -- expand the inputs of p, then insert p
        have hfold : ∀ (l : List Nat), (∀ j ∈ l, j < fuel ∨ g.objAt j = none) →
            ∀ a, NClosed g a →
            (∀ x, x ∈ l.foldl (fun a j => tensor_get_nodes g fuel j a) a ↔
              x ∈ a ∨ ∃ j ∈ l, NReach g j x) ∧
            NClosed g (l.foldl (fun a j => tensor_get_nodes g fuel j a) a) := by
          intro l
          induction l with
          | nil =>
            intro _ a hacl
            refine ⟨fun x => ?_, by simpa using hacl⟩
            simp
          | cons j rest ihl =>
            intro hl a hacl
            have hj := hl j (by simp)
            have hstep := ih j a hj hacl
            have hrest := ihl (fun j' hj' => hl j' (by simp [hj'])) _ hstep.2
            constructor
            · intro x
              simp only [List.foldl_cons]
              rw [hrest.1 x, hstep.1 x]
              constructor
              · rintro ((h | h) | ⟨j', hj', h⟩)
                · exact Or.inl h
                · exact Or.inr ⟨j, by simp, h⟩
                · exact Or.inr ⟨j', by simp [hj'], h⟩
              · rintro (h | ⟨j', hj', h⟩)
                · exact Or.inl (Or.inl h)
                · rcases List.mem_cons.mp hj' with rfl | hj'
                  · exact Or.inl (Or.inr h)
                  · exact Or.inr ⟨j', hj', h⟩
            · simpa only [List.foldl_cons] using hrest.2
        have hobj : g.objAt t ≠ none := by
          intro hnone
          rw [producer_none_of_objAt_none hnone] at hp
          exact Option.noConfusion hp
        have htlt : t < fuel + 1 := by
          rcases ht with h | h
          · exact h
          · exact absurd h hobj
        have hjlt : ∀ j ∈ get_input_tensors g p, j < fuel ∨ g.objAt j = none := by
          intro j hj
          have := producer_input_lt hwf hp hj
          omega
        have hF := hfold (get_input_tensors g p) hjlt tbl hcl
        constructor
        · intro x
          simp only [tensor_get_nodes, hp, if_neg hmem, Finset.mem_insert]
          rw [hF.1 x]
          constructor
          · rintro (rfl | h | ⟨j, hj, h⟩)
            · exact Or.inr (NReach.producer hp)
            · exact Or.inl h
            · exact Or.inr (NReach.step hp hj h)
          · rintro (h | h)
            · exact Or.inr (Or.inl h)
            · rcases (nreach_iff hp).mp h with rfl | ⟨j, hj, hr⟩
              · exact Or.inl rfl
              · exact Or.inr (Or.inr ⟨j, hj, hr⟩)
        · simp only [tensor_get_nodes, hp, if_neg hmem]
          intro q hq j hj x hx
          rcases Finset.mem_insert.mp hq with rfl | hq
          · exact Finset.mem_insert_of_mem ((hF.1 x).mpr (Or.inr ⟨j, hj, hx⟩))
          · exact Finset.mem_insert_of_mem (hF.2 q hq j hj x hx)

/-- Memoization correctness of the value traversal: starting from a set that
is closed up to the pending stack `P` (none of whose members is reachable
from `t`), `get_sub_tensors` adds exactly the values reachable from `t`, and
the result is again closed up to `P`. -/
theorem tensor_get_sub_tensors_spec {g : Graph} (hwf : WF g) :
    ∀ fuel t tbl (P : Set Nat), (t < fuel ∨ g.objAt t = none) →
      TClosed g tbl P → (∀ p ∈ P, ¬ TReach g t p) →
      (∀ x, x ∈ tensor_get_sub_tensors g fuel t tbl ↔ x ∈ tbl ∨ TReach g t x) ∧
      TClosed g (tensor_get_sub_tensors g fuel t tbl) P := by
  intro fuel
  induction fuel with
  | zero =>
    intro t tbl P ht hcl _
    have hnone : g.objAt t = none := by
      rcases ht with h | h
      · omega
      · exact h
    have hp := producer_none_of_objAt_none hnone
    constructor
    · intro x
      simp only [tensor_get_sub_tensors]
      exact ⟨Or.inl, fun h => by
        rcases h with h | h
        · exact h
        · exact absurd h (treach_none hp)⟩
    · simpa only [tensor_get_sub_tensors] using hcl
  | succ fuel ih =>
    intro t tbl P ht hcl hP
    cases hp : producer g t with
    | none =>
      have hpi : producer_inputs g t = [] := by simp [producer_inputs, hp]
      constructor
      · intro x
        simp only [tensor_get_sub_tensors, hpi, List.foldl_nil]
        exact ⟨Or.inl, fun h => by
          rcases h with h | h
          · exact h
          · exact absurd h (treach_none hp)⟩
      · simpa only [tensor_get_sub_tensors, hpi, List.foldl_nil] using hcl
    | some p =>
      have hobj : g.objAt t ≠ none := by
        intro hnone
        rw [producer_none_of_objAt_none hnone] at hp
        exact Option.noConfusion hp
      have htlt : t < fuel + 1 := by
        rcases ht with h | h
        · exact h
        · exact absurd h hobj
      have hfold : ∀ (l : List Nat), (∀ j ∈ l, j < fuel ∨ g.objAt j = none) →
          (∀ j ∈ l, TReach g t j) →
          ∀ a, TClosed g a P →
          (∀ x, x ∈ l.foldl
              (fun a j => if j ∈ a then a else tensor_get_sub_tensors g fuel j (insert j a)) a ↔
            x ∈ a ∨ ∃ j ∈ l, x = j ∨ TReach g j x) ∧
          TClosed g (l.foldl
              (fun a j => if j ∈ a then a else tensor_get_sub_tensors g fuel j (insert j a)) a) P := by
        intro l
        induction l with
        | nil =>
          intro _ _ a hacl
          refine ⟨fun x => ?_, by simpa using hacl⟩
          simp
        | cons j rest ihl =>
          intro hl hstep a hacl
          have hjf := hl j (by simp)
          have hjstep := hstep j (by simp)
          -- one fold step on j
          have hone : (∀ x, x ∈ (if j ∈ a then a else tensor_get_sub_tensors g fuel j (insert j a)) ↔
                x ∈ a ∨ x = j ∨ TReach g j x) ∧
              TClosed g (if j ∈ a then a else tensor_get_sub_tensors g fuel j (insert j a)) P := by
            by_cases hmem : j ∈ a
            · rw [if_pos hmem]
              refine ⟨fun x => ⟨Or.inl, ?_⟩, hacl⟩
              rintro (h | rfl | h)
              · exact h
              · exact hmem
              · -- j is closed in a: it cannot be pending since it is reachable from t
                rcases hacl j hmem with hjP | hclj
                · exact absurd hjstep (hP j hjP)
                · exact hclj x h
            · rw [if_neg hmem]
              have hsub := ih j (insert j a) (P ∪ {j}) hjf
                (by
                  intro y hy
                  rcases Finset.mem_insert.mp hy with rfl | hy
                  · exact Or.inl (Or.inr rfl)
                  · rcases hacl y hy with hyP | hcly
                    · exact Or.inl (Or.inl hyP)
                    · exact Or.inr fun z hz => Finset.mem_insert_of_mem (hcly z hz))
                (by
                  rintro q (hq | hq)
                  · intro hr
                    exact hP q hq (treach_trans hjstep hr)
                  · rw [Set.mem_singleton_iff] at hq
                    subst hq
                    exact treach_irrefl hwf _)
              constructor
              · intro x
                rw [hsub.1 x, Finset.mem_insert]
                constructor
                · rintro ((rfl | h) | h)
                  · exact Or.inr (Or.inl rfl)
                  · exact Or.inl h
                  · exact Or.inr (Or.inr h)
                · rintro (h | rfl | h)
                  · exact Or.inl (Or.inr h)
                  · exact Or.inl (Or.inl rfl)
                  · exact Or.inr h
              · -- closed up to P: j itself is now fully expanded
                intro y hy
                rcases hsub.2 y hy with hyP | hcly
                · rcases hyP with hyP | rfl
                  · exact Or.inl hyP
                  · exact Or.inr fun z hz =>
                      (hsub.1 z).mpr (Or.inr hz)
                · exact Or.inr hcly
          have hrest := ihl (fun j' hj' => hl j' (by simp [hj']))
            (fun j' hj' => hstep j' (by simp [hj'])) _ hone.2
          constructor
          · intro x
            simp only [List.foldl_cons]
            rw [hrest.1 x, hone.1 x]
            constructor
            · rintro ((h | hxj | h) | ⟨j', hj', h⟩)
              · exact Or.inl h
              · exact Or.inr ⟨j, by simp, Or.inl hxj⟩
              · exact Or.inr ⟨j, by simp, Or.inr h⟩
              · exact Or.inr ⟨j', by simp [hj'], h⟩
            · rintro (h | ⟨j', hj', h⟩)
              · exact Or.inl (Or.inl h)
              · rcases List.mem_cons.mp hj' with rfl | hj'
                · rcases h with rfl | h
                  · exact Or.inl (Or.inr (Or.inl rfl))
                  · exact Or.inl (Or.inr (Or.inr h))
                · exact Or.inr ⟨j', hj', h⟩
          · simpa only [List.foldl_cons] using hrest.2
      have hpi : producer_inputs g t = get_input_tensors g p := by
        simp [producer_inputs, hp]
      have hjlt : ∀ j ∈ get_input_tensors g p, j < fuel ∨ g.objAt j = none := by
        intro j hj
        have := producer_input_lt hwf hp hj
        omega
      have hjstep : ∀ j ∈ get_input_tensors g p, TReach g t j :=
        fun j hj => TReach.input hp hj
      have hF := hfold (get_input_tensors g p) hjlt hjstep tbl hcl
      constructor
      · intro x
        simp only [tensor_get_sub_tensors, hpi]
        rw [hF.1 x]
        constructor
        · rintro (h | ⟨j, hj, rfl | h⟩)
          · exact Or.inl h
          · exact Or.inr (TReach.input hp hj)
          · exact Or.inr (TReach.step hp hj h)
        · rintro (h | h)
          · exact Or.inl h
          · rcases (treach_iff hp).mp h with ⟨j, hj, hxj | hr⟩
            · exact Or.inr ⟨j, hj, Or.inl hxj⟩
            · exact Or.inr ⟨j, hj, Or.inr hr⟩
      · simpa only [tensor_get_sub_tensors, hpi] using hF.2

theorem fuel_or_none (g : Graph) (t : Nat) : t < g.objs.length ∨ g.objAt t = none := by
  by_cases h : t < g.objs.length
  · exact Or.inl h
  · exact Or.inr (objAt_none_of_ge (by omega))

/-- The collected operation set is exactly the set of operations reachable
from some declared output, independently of any visitation order. -/
theorem collect_nodes_spec {g : Graph} (hwf : WF g) (outputs : List (String × Nat)) :
    ∀ x, x ∈ collect_nodes g outputs ↔ ∃ pr ∈ outputs, NReach g pr.2 x := by
  have main : ∀ (l : List (String × Nat)) (tbl : Finset Nat), NClosed g tbl →
      (∀ x, x ∈ l.foldl (fun tbl pr => tensor_get_nodes g g.objs.length pr.2 tbl) tbl ↔
        x ∈ tbl ∨ ∃ pr ∈ l, NReach g pr.2 x) ∧
      NClosed g (l.foldl (fun tbl pr => tensor_get_nodes g g.objs.length pr.2 tbl) tbl) := by
    intro l
    induction l with
    | nil =>
      intro tbl hcl
      exact ⟨fun x => by simp, by simpa using hcl⟩
    | cons pr rest ihl =>
      intro tbl hcl
      have hstep := tensor_get_nodes_spec hwf g.objs.length pr.2 tbl
        (fuel_or_none g pr.2) hcl
      have hrest := ihl _ hstep.2
      constructor
      · intro x
        simp only [List.foldl_cons]
        rw [hrest.1 x, hstep.1 x]
        constructor
        · rintro ((h | h) | ⟨pr', hpr', h⟩)
          · exact Or.inl h
          · exact Or.inr ⟨pr, by simp, h⟩
          · exact Or.inr ⟨pr', by simp [hpr'], h⟩
        · rintro (h | ⟨pr', hpr', h⟩)
          · exact Or.inl (Or.inl h)
          · rcases List.mem_cons.mp hpr' with rfl | hpr'
            · exact Or.inl (Or.inr h)
            · exact Or.inr ⟨pr', hpr', h⟩
      · simpa only [List.foldl_cons] using hrest.2
  intro x
  unfold collect_nodes
  rw [(main outputs ∅ (by intro q hq; simp at hq)).1 x]
  simp

/-- The collected value set is exactly: the declared outputs themselves plus
every value reachable from one, independently of any visitation order. -/
theorem collect_tensors_spec {g : Graph} (hwf : WF g) (outputs : List (String × Nat)) :
    ∀ x, x ∈ collect_tensors g outputs ↔
      ∃ pr ∈ outputs, x = pr.2 ∨ TReach g pr.2 x := by
  have main : ∀ (l : List (String × Nat)) (tbl : Finset Nat), TClosed g tbl ∅ →
      (∀ x, x ∈ l.foldl
          (fun tbl pr => tensor_get_sub_tensors g g.objs.length pr.2 (insert pr.2 tbl)) tbl ↔
        x ∈ tbl ∨ ∃ pr ∈ l, x = pr.2 ∨ TReach g pr.2 x) ∧
      TClosed g (l.foldl
          (fun tbl pr => tensor_get_sub_tensors g g.objs.length pr.2 (insert pr.2 tbl)) tbl) ∅ := by
    intro l
    induction l with
    | nil =>
      intro tbl hcl
      exact ⟨fun x => by simp, by simpa using hcl⟩
    | cons pr rest ihl =>
      intro tbl hcl
      have hstep := tensor_get_sub_tensors_spec hwf g.objs.length pr.2 (insert pr.2 tbl)
        ({pr.2} : Set Nat) (fuel_or_none g pr.2)
        (by
          intro y hy
          rcases Finset.mem_insert.mp hy with rfl | hy
          · exact Or.inl rfl
          · rcases hcl y hy with hyP | hcly
            · exact absurd hyP (Set.not_mem_empty y)
            · exact Or.inr fun z hz => Finset.mem_insert_of_mem (hcly z hz))
        (by
          intro q hq
          rw [Set.mem_singleton_iff] at hq
          subst hq
          exact treach_irrefl hwf _)
      -- upgrade: after the root is fully expanded the set is closed with no
      -- pending values
      have hstep_closed : TClosed g
          (tensor_get_sub_tensors g g.objs.length pr.2 (insert pr.2 tbl)) ∅ := by
        intro y hy
        rcases hstep.2 y hy with hyP | hcly
        · rw [Set.mem_singleton_iff] at hyP
          subst hyP
          exact Or.inr fun z hz => (hstep.1 z).mpr (Or.inr hz)
        · exact Or.inr hcly
      have hrest := ihl _ hstep_closed
      constructor
      · intro x
        simp only [List.foldl_cons]
        rw [hrest.1 x, hstep.1 x, Finset.mem_insert]
        constructor
        · rintro (((hx | h) | h) | ⟨pr', hpr', h⟩)
          · exact Or.inr ⟨pr, by simp, Or.inl hx⟩
          · exact Or.inl h
          · exact Or.inr ⟨pr, by simp, Or.inr h⟩
          · exact Or.inr ⟨pr', by simp [hpr'], h⟩
        · rintro (h | ⟨pr', hpr', h⟩)
          · exact Or.inl (Or.inl (Or.inr h))
          · rcases List.mem_cons.mp hpr' with rfl | hpr'
            · rcases h with hx | h
              · exact Or.inl (Or.inl (Or.inl hx))
              · exact Or.inl (Or.inr h)
            · exact Or.inr ⟨pr', hpr', h⟩
      · simpa only [List.foldl_cons] using hrest.2
  intro x
  unfold collect_tensors
  rw [(main outputs ∅ (by intro q hq; simp at hq)).1 x]
  simp

/-- Declared outputs always belong to the collected value set. -/
theorem output_mem_collect_tensors {g : Graph} (hwf : WF g)
    {outputs : List (String × Nat)} {pr : String × Nat} (h : pr ∈ outputs) :
    pr.2 ∈ collect_tensors g outputs :=
  (collect_tensors_spec hwf outputs pr.2).mpr ⟨pr, h, Or.inl rfl⟩

/-! ### Name assignment (`lib.rs` lines 100-135) -/

/-- The name table `tensor_names` (and `node_names`): a `HashMap` keyed by
object identity, modelled as an association list whose lookup returns the
most recently inserted binding. -/
abbrev NameMap : Type := List (Nat × String)

/-- `HashMap` lookup: the most recently inserted binding for key `t`. -/
def alookup {α : Type} : List (Nat × α) → Nat → Option α
  | [], _ => none
  | (k, v) :: rest, t => if k = t then some v else alookup rest t

/-- `lib.rs` lines 104-114: claim every explicitly requested tensor name;
fail with `NameConflictError` when a requested name was already chosen. -/
def assign_requested (g : Graph) :
    List Nat → Finset String → NameMap → Except Error (Finset String × NameMap)
  | [], chosen, m => .ok (chosen, m)
  | t :: rest, chosen, m =>
    match get_name g t with
    | some name =>
      if name ∈ chosen then .error (.nameConflictError name)
      else assign_requested g rest (insert name chosen) ((t, name) :: m)
    | none => assign_requested g rest chosen m

/-- `lib.rs` lines 115-118: every declared output claims its caller-given
name, unconditionally (no conflict check, existing bindings are
overwritten). -/
def assign_output_names (outputs : List (String × Nat))
    (cm : Finset String × NameMap) : Finset String × NameMap :=
  outputs.foldl (fun cm pr => (insert pr.1 cm.1, (pr.2, pr.1) :: cm.2)) cm

/-- The generation loop of `lib.rs` lines 123-129: try
`format!("tensor_{}", next_tensor_id)`, incrementing the counter while the
candidate is already claimed.  The loop always terminates because only
finitely many names are claimed; structural fuel makes this evaluable, and
`findFreeName_spec` shows the fuel `build_proto` passes is never exhausted. -/
def findFreeName (chosen : Finset String) : Nat → Nat → String × Nat
  | next, 0 => (tensorName next, next)
  | next, fuel + 1 =>
    if tensorName next ∈ chosen then findFreeName chosen (next + 1) fuel
    else (tensorName next, next)

/-- `lib.rs` lines 119-135: every still-unnamed tensor receives the next free
generated name; the counter also advances past the used candidate. -/
def assign_remaining : List Nat → Finset String → NameMap → Nat → Finset String × NameMap
  | [], chosen, m, _ => (chosen, m)
  | t :: rest, chosen, m, next =>
    if (alookup m t).isSome then assign_remaining rest chosen m next
    else
      let r := findFreeName chosen next (chosen.card + 1)
      assign_remaining rest (insert r.1 chosen) ((t, r.1) :: m) (r.2 + 1)

/-- The complete name-assignment phase of `build_proto` (`lib.rs` lines
100-135): requested names, then declared-output names, then generated
names. -/
def assign_names (g : Graph) (outputs : List (String × Nat)) (tensorList : List Nat) :
    Except Error (Finset String × NameMap) :=
  match assign_requested g tensorList ∅ [] with
  | .error e => .error e
  | .ok cm =>
    let cm2 := assign_output_names outputs cm
    .ok (assign_remaining tensorList cm2.1 cm2.2 0)

/-- `lib.rs` lines 82-89: record the requested name of every named
operation. -/
def build_node_names (g : Graph) : List Nat → NameMap → NameMap
  | [], m => m
  | n :: rest, m =>
    match get_name g n with
    | some nm =>
      if (alookup m n).isSome then build_node_names g rest m
      else build_node_names g rest ((n, nm) :: m)
    | none => build_node_names g rest m

/-! ### Weight externalization (modelled from the spec)

`weights.rs` is not among the given sources.  The three managers are
modelled from spec section 4.3: `Discard` drops payloads, `External file`
appends payloads to one blob and records offset/length, `Embedded` inlines
the raw bytes. -/

/-- `WeightStorageStrategy` (`lib.rs` lines 52-56). -/
inductive WeightStorageStrategy where
  | none
  | binFile (path : String)
  | embeddedData
deriving DecidableEq

/-- Modelled from the spec: the accumulated state of the active weight
output manager. -/
inductive ManagerState where
  | null
  | bin (entries : List (Nat × Nat × Nat)) (pos : Nat)
  | embedded (entries : List (Nat × List Nat))
deriving DecidableEq

/-- `WeightStorageStrategy::get_manager` (`lib.rs` lines 58-67); every arm
succeeds. -/
def get_manager : WeightStorageStrategy → ManagerState
  | .none => .null
  | .binFile _ => .bin [] 0
  | .embeddedData => .embedded []

/-- Modelled from the spec: `Tensor::gather_weights` hands a constant leaf's
payload to the manager; the external-file manager appends it at the current
offset, the embedded manager stores the bytes, the null manager drops them. -/
def gather_weights (g : Graph) (st : ManagerState) (t : Nat) : ManagerState :=
  match leaf_data g t with
  | Option.none => st
  | some bytes =>
    match st with
    | .null => .null
    | .bin entries pos => .bin ((t, pos, bytes.length) :: entries) (pos + bytes.length)
    | .embedded entries => .embedded ((t, bytes) :: entries)

/-- `lib.rs` lines 139-141: gather weights of every collected tensor. -/
def gather_all_weights (g : Graph) (tensorList : List Nat) (st : ManagerState) : ManagerState :=
  tensorList.foldl (gather_weights g) st

/-- Modelled from the spec: `finalize_tensor_data` flushes the external blob
and leaves the manager ready to materialize initializer entries. -/
def finalize_tensor_data (st : ManagerState) : ManagerState := st

/-! ### Protos (the wire types produced at the boundary) -/

structure ValueInfoProto where
  name : String
  info : TInfo
deriving DecidableEq

structure NodeProto where
  name : String
  input : List String
  output : List String
  opType : String
  domain : String
deriving DecidableEq

/-- How an initializer entry carries its payload; the only part of the
descriptor that depends on the chosen weight strategy. -/
inductive TensorPayload where
  | dropped
  | inline (bytes : List Nat)
  | external (offset len : Nat)
deriving DecidableEq

structure TensorProto where
  name : String
  dtype : DType
  dims : List Nat
  payload : TensorPayload
deriving DecidableEq

structure GraphProto where
  name : String
  node : List NodeProto
  initializer : List TensorProto
  input : List ValueInfoProto
  output : List ValueInfoProto
  valueInfo : List ValueInfoProto
deriving DecidableEq

structure ModelProto where
  irVersion : Nat
  opsetImport : List String
  graph : GraphProto
deriving DecidableEq

/-- Resolve every dimension of a shape to a concrete integer; symbolic or
unresolved dimensions make the initializer representation fail (spec
section 4.4: "unresolved dimension" errors propagate). -/
def resolve_dims : List Dimension → Except Error (List Nat)
  | [] => .ok []
  | Dimension.known n :: rest =>
    match resolve_dims rest with
    | .ok ds => .ok (n :: ds)
    | .error e => .error e
  | _ => .error .unresolvedDimensionError

/-- The payload representation the active manager materializes for tensor
`t`. -/
def payload_for (st : ManagerState) (t : Nat) : TensorPayload :=
  match st with
  | .null => .dropped
  | .bin entries _ =>
    match alookup entries t with
    | some pr => .external pr.1 pr.2
    | Option.none => .dropped
  | .embedded entries =>
    match alookup entries t with
    | some bytes => .inline bytes
    | Option.none => .dropped

/-- Modelled from the spec: `Tensor::get_initializer(name, manager)` returns
`Ok(None)` for a non-constant value, an initializer entry named `name` for a
constant one, and an error when the constant's shape cannot be resolved. -/
def get_initializer (g : Graph) (st : ManagerState) (t : Nat) (name : String) :
    Except Error (Option TensorProto) :=
  match leaf_data g t with
  | Option.none => .ok none
  | some _ =>
    match resolve_dims (tensor_info g t).shape with
    | .error e => .error e
    | .ok dims => .ok (some ⟨name, (tensor_info g t).dtype, dims, payload_for st t⟩)

/-- Result of one `build_proto` call: a descriptor, an `Err`, or a Rust
panic (the unchecked `HashMap` indexing in `to_node_proto` and in the
declared-input loop). -/
inductive Run (α : Type) where
  | ok (val : α)
  | err (e : Error)
  | panicked
deriving DecidableEq

/-- `lib.rs` lines 153-159: generate the initializer entries; the name is
looked up by unchecked indexing (`tensor_names[&tensor]`, a panic when
absent) and any `get_initializer` error aborts the loop. -/
def gen_initializers (g : Graph) (st : ManagerState) (m : NameMap) :
    List Nat → Run (List TensorProto)
  | [] => .ok []
  | t :: rest =>
    match alookup m t with
    | Option.none => .panicked
    | some nm =>
      match get_initializer g st t nm with
      | .error e => .err e
      | .ok Option.none => gen_initializers g st m rest
      | .ok (some ini) =>
        match gen_initializers g st m rest with
        | .ok l => .ok (ini :: l)
        | .err e => .err e
        | .panicked => .panicked

/-- `Node::to_node_proto` (`node.rs` lines 51-61): translate every input and
output tensor through the name table by unchecked indexing; `none` models
the panic on a missing key. -/
def to_node_proto (g : Graph) (tensor_names : NameMap) (name : Option String) (n : Nat) :
    Option NodeProto :=
  match (get_input_tensors g n).mapM (alookup tensor_names),
        (get_output_tensors g n).mapM (alookup tensor_names) with
  | some ins, some outs =>
    some ⟨name.getD "", ins, outs, get_onnx_type g n, get_onnx_domain⟩
  | _, _ => none

/-- Modelled from the spec: `Tensor::to_value_info_proto(name)` pairs the
given name with the tensor's dtype/shape. -/
def to_value_info_proto (g : Graph) (t : Nat) (name : String) : ValueInfoProto :=
  ⟨name, tensor_info g t⟩

/-- `lib.rs` line 163: emit every collected operation's node proto;
`none` models the panic of an unchecked name lookup inside. -/
def emit_node_protos (g : Graph) (node_names tensor_names : NameMap)
    (nodeList : List Nat) : Option (List NodeProto) :=
  nodeList.mapM (fun n => to_node_proto g tensor_names (alookup node_names n) n)

/-- `lib.rs` lines 166 and 168: emit value-info protos for a list of tensors,
looking each name up in the table (an absent name is a panic: `none`). -/
def emit_value_infos (g : Graph) (tensor_names : NameMap) (ts : List Nat) :
    Option (List ValueInfoProto) :=
  ts.mapM (fun t => (alookup tensor_names t).map (to_value_info_proto g t))

/-- `lib.rs` lines 145-151: the collected tensors that are neither declared
inputs nor declared outputs (compared by identity). -/
def tensors_to_enumerate (inputs : List Nat) (outputs : List (String × Nat))
    (tensorList : List Nat) : List Nat :=
  tensorList.filter fun t =>
    !(inputs.any fun i => i == t) && !(outputs.any fun pr => pr.2 == t)

/-- `build_proto` (`lib.rs` lines 69-187).

`nodeList` and `tensorList` are the (unspecified) iteration orders of the two
collected `HashSet`s; the theorems quantify over every enumeration of
`collect_nodes g outputs` / `collect_tensors g outputs`. -/
def build_proto (g : Graph) (inputs : List Nat) (outputs : List (String × Nat))
    (weight_storage : WeightStorageStrategy) (nodeList tensorList : List Nat) :
    Run ModelProto :=
  let node_names := build_node_names g nodeList []
  match assign_names g outputs tensorList with
  | .error e => .err e
  | .ok cm =>
    let tensor_names := cm.2
    let st := finalize_tensor_data (gather_all_weights g tensorList (get_manager weight_storage))
    let tte := tensors_to_enumerate inputs outputs tensorList
    match gen_initializers g st tensor_names tensorList with
    | .err e => .err e
    | .panicked => .panicked
    | .ok initializers =>
      match emit_node_protos g node_names tensor_names nodeList with
      | Option.none => .panicked
      | some nps =>
        match emit_value_infos g tensor_names inputs with
        | Option.none => .panicked
        | some ips =>
          match emit_value_infos g tensor_names tte with
          | Option.none => .panicked
          | some vis =>
            .ok
              { irVersion := 2024325
                opsetImport := []
                graph :=
                  { name := ""
                    node := nps
                    initializer := initializers
                    input := ips
                    output := outputs.map fun pr => to_value_info_proto g pr.2 pr.1
                    valueInfo := vis } }

/-! ### Properties of the name-generation loop -/

/-- `s` is one of the first `fuel` candidate names tried from counter value
`next`. -/
def in_window (next fuel : Nat) (s : String) : Bool :=
  (List.range fuel).any fun k => s == tensorName (next + k)

theorem in_window_iff {next fuel : Nat} {s : String} :
    in_window next fuel s = true ↔ ∃ k, k < fuel ∧ s = tensorName (next + k) := by
  simp [in_window, List.any_eq_true]

/-- The generation loop returns the least free candidate at or after `next`,
provided the fuel exceeds the number of claimed candidates in the scanned
window. -/
theorem findFreeName_spec :
    ∀ (fuel next : Nat) (chosen : Finset String),
      (chosen.filter fun s => in_window next fuel s = true).card < fuel →
      (findFreeName chosen next fuel).1 = tensorName (findFreeName chosen next fuel).2 ∧
      next ≤ (findFreeName chosen next fuel).2 ∧
      (findFreeName chosen next fuel).1 ∉ chosen ∧
      ∀ i, next ≤ i → i < (findFreeName chosen next fuel).2 → tensorName i ∈ chosen := by
  intro fuel
  induction fuel with
  | zero => intro next chosen h; omega
  | succ fuel ih =>
    intro next chosen h
    by_cases hmem : tensorName next ∈ chosen
    · have hcard : (chosen.filter fun s => in_window (next + 1) fuel s = true).card < fuel := by
        set B := chosen.filter fun s => in_window (next + 1) fuel s = true with hB
        set A := chosen.filter fun s => in_window next (fuel + 1) s = true with hA
        have hsub : insert (tensorName next) B ⊆ A := by
          intro s hs
          rcases Finset.mem_insert.mp hs with rfl | hs
          · exact Finset.mem_filter.mpr ⟨hmem, in_window_iff.mpr ⟨0, by omega, by simp⟩⟩
          · have hs' := Finset.mem_filter.mp hs
            refine Finset.mem_filter.mpr ⟨hs'.1, ?_⟩
            obtain ⟨k, hk, hsk⟩ := in_window_iff.mp hs'.2
            refine in_window_iff.mpr ⟨k + 1, by omega, ?_⟩
            rw [hsk]; ring_nf
        have hnotin : tensorName next ∉ B := by
          intro hin
          obtain ⟨k, _, hk⟩ := in_window_iff.mp (Finset.mem_filter.mp hin).2
          have := tensorName_inj hk
          omega
        have h1 : B.card + 1 ≤ A.card := by
          have := Finset.card_le_card hsub
          rw [Finset.card_insert_of_not_mem hnotin] at this
          omega
        omega
      have hrec := ih (next + 1) chosen hcard
      have hstep : findFreeName chosen next (fuel + 1) = findFreeName chosen (next + 1) fuel := by
        simp [findFreeName, hmem]
      rw [hstep]
      refine ⟨hrec.1, by omega, hrec.2.2.1, ?_⟩
      intro i h1 h2
      by_cases hi : i = next
      · subst hi; exact hmem
      · exact hrec.2.2.2 i (by omega) h2
    · have hstep : findFreeName chosen next (fuel + 1) = (tensorName next, next) := by
        simp [findFreeName, hmem]
      rw [hstep]
      exact ⟨rfl, le_refl _, hmem, fun i h1 h2 => by omega⟩

/-- The fuel `assign_remaining` passes (`chosen.card + 1`) is always
sufficient. -/
theorem findFreeName_default_spec (chosen : Finset String) (next : Nat) :
    (findFreeName chosen next (chosen.card + 1)).1 =
      tensorName (findFreeName chosen next (chosen.card + 1)).2 ∧
    next ≤ (findFreeName chosen next (chosen.card + 1)).2 ∧
    (findFreeName chosen next (chosen.card + 1)).1 ∉ chosen ∧
    ∀ i, next ≤ i → i < (findFreeName chosen next (chosen.card + 1)).2 →
      tensorName i ∈ chosen := by
  refine findFreeName_spec (chosen.card + 1) next chosen ?_
  have := Finset.card_filter_le chosen
    (fun s => in_window next (chosen.card + 1) s = true)
  omega

theorem alookup_cons {α : Type} (k : Nat) (v : α) (m : List (Nat × α)) (t : Nat) :
    alookup ((k, v) :: m) t = if k = t then some v else alookup m t := rfl

/-- Behaviour of the generated-name pass (`lib.rs` 119-135): existing
bindings survive unchanged, every listed tensor ends up named, every new name
is a fresh `tensor_<k>` with `k` at or beyond the running counter, all names
end up claimed, and two distinct previously-unnamed tensors never receive the
same generated name. -/
theorem assign_remaining_spec :
    ∀ (l : List Nat) (chosen : Finset String) (m : NameMap) (next : Nat),
      (∀ t s, alookup m t = some s → s ∈ chosen) →
      (∀ t s, alookup m t = some s →
        alookup (assign_remaining l chosen m next).2 t = some s) ∧
      (∀ t, t ∈ l → (alookup (assign_remaining l chosen m next).2 t).isSome = true) ∧
      (∀ t s, alookup (assign_remaining l chosen m next).2 t = some s →
        alookup m t = some s ∨
          (alookup m t = none ∧ s ∉ chosen ∧ ∃ k, s = tensorName k ∧ next ≤ k)) ∧
      (∀ t s, alookup (assign_remaining l chosen m next).2 t = some s →
        s ∈ (assign_remaining l chosen m next).1) ∧
      (∀ s, s ∈ chosen → s ∈ (assign_remaining l chosen m next).1) ∧
      (∀ t1 t2 s, t1 ≠ t2 → alookup m t1 = none → alookup m t2 = none →
        alookup (assign_remaining l chosen m next).2 t1 = some s →
        alookup (assign_remaining l chosen m next).2 t2 ≠ some s) := by
  intro l
  induction l with
  | nil =>
    intro chosen m next hinv
    refine ⟨fun t s h => h, by simp, fun t s h => Or.inl h, fun t s h => hinv t s h,
      fun s h => h, ?_⟩
    intro t1 t2 s _ h1 _ h3
    simp only [assign_remaining] at h3
    rw [h1] at h3
    exact absurd h3 (by simp)
  | cons t0 rest ih =>
    intro chosen m next hinv
    by_cases hname : (alookup m t0).isSome = true
    · have hstep : assign_remaining (t0 :: rest) chosen m next =
          assign_remaining rest chosen m next := by
        simp only [assign_remaining, hname, if_pos]
      obtain ⟨s0, hs0⟩ := Option.isSome_iff_exists.mp hname
      have IH := ih chosen m next hinv
      rw [hstep]
      refine ⟨IH.1, ?_, IH.2.2.1, IH.2.2.2.1, IH.2.2.2.2.1, IH.2.2.2.2.2⟩
      intro t ht
      rcases List.mem_cons.mp ht with rfl | ht
      · rw [IH.1 t s0 hs0]; rfl
      · exact IH.2.1 t ht
    · have hnone : alookup m t0 = none := by
        cases h : alookup m t0
        · rfl
        · rw [h] at hname; simp at hname
      have hF := findFreeName_default_spec chosen next
      set F := findFreeName chosen next (chosen.card + 1) with hFdef
      have hstep : assign_remaining (t0 :: rest) chosen m next =
          assign_remaining rest (insert F.1 chosen) ((t0, F.1) :: m) (F.2 + 1) := by
        simp only [assign_remaining, hname]
        rfl
      have hinv' : ∀ t s, alookup ((t0, F.1) :: m) t = some s → s ∈ insert F.1 chosen := by
        intro t s h
        rw [alookup_cons] at h
        by_cases ht : t0 = t
        · rw [if_pos ht] at h
          obtain rfl := Option.some.inj h
          exact Finset.mem_insert_self _ _
        · rw [if_neg ht] at h
          exact Finset.mem_insert_of_mem (hinv t s h)
      have IH := ih (insert F.1 chosen) ((t0, F.1) :: m) (F.2 + 1) hinv'
      rw [hstep]
      have hm' : ∀ t, t ≠ t0 → alookup ((t0, F.1) :: m) t = alookup m t := by
        intro t ht
        rw [alookup_cons, if_neg (fun h => ht h.symm)]
      have ht0' : alookup ((t0, F.1) :: m) t0 = some F.1 := by
        rw [alookup_cons, if_pos rfl]
      refine ⟨?_, ?_, ?_, IH.2.2.2.1, ?_, ?_⟩
      · intro t s h
        by_cases ht : t = t0
        · subst ht; rw [hnone] at h; exact absurd h (by simp)
        · exact IH.1 t s (by rw [hm' t ht]; exact h)
      · intro t ht
        rcases List.mem_cons.mp ht with rfl | ht
        · rw [IH.1 t F.1 ht0']; rfl
        · exact IH.2.1 t ht
      · intro t s h
        rcases IH.2.2.1 t s h with hof | ⟨hnone', hfresh, k, hk, hkge⟩
        · by_cases ht : t = t0
          · subst ht
            rw [ht0'] at hof
            obtain rfl := Option.some.inj hof
            exact Or.inr ⟨hnone, hF.2.2.1, F.2, hF.1, hF.2.1⟩
          · rw [hm' t ht] at hof
            exact Or.inl hof
        · have ht : t ≠ t0 := by
            intro h'
            subst h'
            rw [ht0'] at hnone'
            exact Option.noConfusion hnone'
          rw [hm' t ht] at hnone'
          exact Or.inr ⟨hnone', fun hc => hfresh (Finset.mem_insert_of_mem hc),
            k, hk, by omega⟩
      · intro s hs
        exact IH.2.2.2.2.1 s (Finset.mem_insert_of_mem hs)
      · intro t1 t2 s hne h1 h2 h3 h4
        by_cases ht1 : t1 = t0
        · subst ht1
          have := IH.1 t1 F.1 ht0'
          rw [this] at h3
          obtain rfl := Option.some.inj h3.symm
          have ht2 : t2 ≠ t1 := fun h => hne h.symm
          rcases IH.2.2.1 t2 _ h4 with hof | ⟨_, hfresh, _⟩
          · rw [hm' t2 ht2] at hof
            rw [h2] at hof
            exact Option.noConfusion hof
          · exact hfresh (Finset.mem_insert_self _ _)
        · by_cases ht2 : t2 = t0
          · subst ht2
            have := IH.1 t2 F.1 ht0'
            rw [this] at h4
            obtain rfl := Option.some.inj h4.symm
            rcases IH.2.2.1 t1 _ h3 with hof | ⟨_, hfresh, _⟩
            · rw [hm' t1 ht1] at hof
              rw [h1] at hof
              exact Option.noConfusion hof
            · exact hfresh (Finset.mem_insert_self _ _)
          · exact IH.2.2.2.2.2 t1 t2 s hne
              (by rw [hm' t1 ht1]; exact h1)
              (by rw [hm' t2 ht2]; exact h2) h3 h4

/-! ### Properties of the requested-name pass -/

theorem assign_requested_nil {g : Graph} {chosen : Finset String} {m : NameMap} :
    assign_requested g [] chosen m = .ok (chosen, m) := rfl

theorem assign_requested_cons_none {g : Graph} {t0 : Nat} {rest : List Nat}
    {chosen : Finset String} {m : NameMap} (hn : get_name g t0 = none) :
    assign_requested g (t0 :: rest) chosen m = assign_requested g rest chosen m := by
  simp [assign_requested, hn]

theorem assign_requested_cons_conflict {g : Graph} {t0 : Nat} {rest : List Nat}
    {chosen : Finset String} {m : NameMap} {nm : String}
    (hn : get_name g t0 = some nm) (hmem : nm ∈ chosen) :
    assign_requested g (t0 :: rest) chosen m = .error (.nameConflictError nm) := by
  simp [assign_requested, hn, hmem]

theorem assign_requested_cons_free {g : Graph} {t0 : Nat} {rest : List Nat}
    {chosen : Finset String} {m : NameMap} {nm : String}
    (hn : get_name g t0 = some nm) (hmem : nm ∉ chosen) :
    assign_requested g (t0 :: rest) chosen m =
      assign_requested g rest (insert nm chosen) ((t0, nm) :: m) := by
  simp [assign_requested, hn, hmem]

/-- After a successful requested-name pass, the table binds exactly the
listed tensors that carry an explicit name, to that name. -/
theorem assign_requested_lookup {g : Graph} :
    ∀ {l : List Nat} {chosen : Finset String} {m : NameMap}
      {r : Finset String × NameMap},
      assign_requested g l chosen m = .ok r →
      ∀ t, alookup r.2 t =
        if t ∈ l ∧ (get_name g t).isSome = true then get_name g t else alookup m t := by
  intro l
  induction l with
  | nil =>
    intro chosen m r h t
    rw [assign_requested_nil] at h
    obtain rfl := (Except.ok.inj h)
    simp
  | cons t0 rest ih =>
    intro chosen m r h t
    cases hn : get_name g t0 with
    | none =>
      rw [assign_requested_cons_none hn] at h
      rw [ih h t]
      by_cases hmem : t ∈ rest
      · by_cases hs : (get_name g t).isSome = true
        · rw [if_pos ⟨hmem, hs⟩, if_pos ⟨by simp [hmem], hs⟩]
        · rw [if_neg (fun hc => hs hc.2), if_neg (fun hc => hs hc.2)]
      · by_cases ht0 : t = t0
        · subst ht0
          rw [if_neg (fun hc => hmem hc.1)]
          rw [if_neg (fun hc => by rw [hn] at hc; simp at hc)]
        · rw [if_neg (fun hc => hmem hc.1)]
          rw [if_neg (fun hc => by
            rcases List.mem_cons.mp hc.1 with h' | h'
            · exact ht0 h'
            · exact hmem h')]
    | some nm =>
      by_cases hmem : nm ∈ chosen
      · rw [assign_requested_cons_conflict hn hmem] at h
        exact absurd h (by simp)
      · rw [assign_requested_cons_free hn hmem] at h
        rw [ih h t]
        by_cases ht0 : t = t0
        · subst ht0
          by_cases hrest : t ∈ rest
          · rw [if_pos ⟨hrest, by rw [hn]; rfl⟩, if_pos ⟨by simp, by rw [hn]; rfl⟩]
          · rw [if_neg (fun hc => hrest hc.1), if_pos ⟨by simp, by rw [hn]; rfl⟩]
            rw [alookup_cons, if_pos rfl, hn]
        · have hlk : alookup ((t0, nm) :: m) t = alookup m t := by
            rw [alookup_cons, if_neg (fun hc => ht0 hc.symm)]
          by_cases hrest : t ∈ rest
          · by_cases hs : (get_name g t).isSome = true
            · rw [if_pos ⟨hrest, hs⟩, if_pos ⟨by simp [hrest], hs⟩]
            · rw [if_neg (fun hc => hs hc.2), if_neg (fun hc => hs hc.2), hlk]
          · rw [if_neg (fun hc => hrest hc.1), hlk]
            rw [if_neg (fun hc => by
              rcases List.mem_cons.mp hc.1 with h' | h'
              · exact ht0 h'
              · exact hrest h')]

/-- A successful requested-name pass implies no listed explicit name was
already claimed beforehand. -/
theorem assign_requested_ok_fresh {g : Graph} :
    ∀ {l : List Nat} {chosen : Finset String} {m : NameMap}
      {r : Finset String × NameMap},
      assign_requested g l chosen m = .ok r →
      ∀ t ∈ l, ∀ s, get_name g t = some s → s ∉ chosen := by
  intro l
  induction l with
  | nil => intro chosen m r h t ht; simp at ht
  | cons t0 rest ih =>
    intro chosen m r h t ht s hs
    cases hn : get_name g t0 with
    | none =>
      rw [assign_requested_cons_none hn] at h
      rcases List.mem_cons.mp ht with rfl | ht
      · rw [hn] at hs; exact Option.noConfusion hs
      · exact ih h t ht s hs
    | some nm =>
      by_cases hmem : nm ∈ chosen
      · rw [assign_requested_cons_conflict hn hmem] at h
        exact absurd h (by simp)
      · rw [assign_requested_cons_free hn hmem] at h
        rcases List.mem_cons.mp ht with rfl | ht
        · rw [hn] at hs
          obtain rfl := Option.some.inj hs
          exact hmem
        · intro hc
          exact ih h t ht s hs (Finset.mem_insert_of_mem hc)

/-- A successful requested-name pass implies the listed tensors' explicit
names are pairwise distinct. -/
theorem assign_requested_ok_distinct {g : Graph} :
    ∀ {l : List Nat} {chosen : Finset String} {m : NameMap}
      {r : Finset String × NameMap},
      assign_requested g l chosen m = .ok r → l.Nodup →
      ∀ t1 ∈ l, ∀ t2 ∈ l, t1 ≠ t2 → ∀ s,
        get_name g t1 = some s → get_name g t2 ≠ some s := by
  intro l
  induction l with
  | nil => intro chosen m r h hnd t1 ht1; simp at ht1
  | cons t0 rest ih =>
    intro chosen m r h hnd t1 ht1 t2 ht2 hne s hs1 hs2
    cases hn : get_name g t0 with
    | none =>
      rw [assign_requested_cons_none hn] at h
      rcases List.mem_cons.mp ht1 with rfl | ht1
      · rw [hn] at hs1; exact Option.noConfusion hs1
      · rcases List.mem_cons.mp ht2 with rfl | ht2
        · rw [hn] at hs2; exact Option.noConfusion hs2
        · exact ih h (List.Nodup.of_cons hnd) t1 ht1 t2 ht2 hne s hs1 hs2
    | some nm =>
      by_cases hmem : nm ∈ chosen
      · rw [assign_requested_cons_conflict hn hmem] at h
        exact absurd h (by simp)
      · rw [assign_requested_cons_free hn hmem] at h
        rcases List.mem_cons.mp ht1 with he1 | ht1r
        · rcases List.mem_cons.mp ht2 with he2 | ht2r
          · exact hne (he1.trans he2.symm)
          · rw [he1, hn] at hs1
            have hss := Option.some.inj hs1
            rw [← hss] at hs2
            exact assign_requested_ok_fresh h t2 ht2r nm hs2 (Finset.mem_insert_self _ _)
        · rcases List.mem_cons.mp ht2 with he2 | ht2r
          · rw [he2, hn] at hs2
            have hss := Option.some.inj hs2
            rw [← hss] at hs1
            exact assign_requested_ok_fresh h t1 ht1r nm hs1 (Finset.mem_insert_self _ _)
          · exact ih h (List.Nodup.of_cons hnd) t1 ht1r t2 ht2r hne s hs1 hs2

/-- The chosen-name set after a successful requested-name pass. -/
theorem assign_requested_ok_chosen {g : Graph} :
    ∀ {l : List Nat} {chosen : Finset String} {m : NameMap}
      {r : Finset String × NameMap},
      assign_requested g l chosen m = .ok r →
      ∀ s, s ∈ r.1 ↔ s ∈ chosen ∨ ∃ t ∈ l, get_name g t = some s := by
  intro l
  induction l with
  | nil =>
    intro chosen m r h s
    rw [assign_requested_nil] at h
    obtain rfl := Except.ok.inj h
    simp
  | cons t0 rest ih =>
    intro chosen m r h s
    cases hn : get_name g t0 with
    | none =>
      rw [assign_requested_cons_none hn] at h
      rw [ih h s]
      constructor
      · rintro (hc | ⟨t, ht, hname⟩)
        · exact Or.inl hc
        · exact Or.inr ⟨t, by simp [ht], hname⟩
      · rintro (hc | ⟨t, ht, hname⟩)
        · exact Or.inl hc
        · rcases List.mem_cons.mp ht with rfl | ht
          · rw [hn] at hname; exact Option.noConfusion hname
          · exact Or.inr ⟨t, ht, hname⟩
    | some nm =>
      by_cases hmem : nm ∈ chosen
      · rw [assign_requested_cons_conflict hn hmem] at h
        exact absurd h (by simp)
      · rw [assign_requested_cons_free hn hmem] at h
        rw [ih h s]
        constructor
        · rintro (hc | ⟨t, ht, hname⟩)
          · rcases Finset.mem_insert.mp hc with rfl | hc
            · exact Or.inr ⟨t0, by simp, hn⟩
            · exact Or.inl hc
          · exact Or.inr ⟨t, by simp [ht], hname⟩
        · rintro (hc | ⟨t, ht, hname⟩)
          · exact Or.inl (Finset.mem_insert_of_mem hc)
          · rcases List.mem_cons.mp ht with rfl | ht
            · rw [hn] at hname
              obtain rfl := Option.some.inj hname
              exact Or.inl (Finset.mem_insert_self _ _)
            · exact Or.inr ⟨t, ht, hname⟩

/-- The requested-name pass fails with exactly `NameConflictError s` when `s`
is a duplicated explicit name and every duplicated (or pre-claimed) explicit
name equals `s`. -/
theorem assign_requested_conflict {g : Graph} {s : String} :
    ∀ (l : List Nat) (chosen : Finset String) (m : NameMap),
      l.Nodup →
      (∃ t1 ∈ l, get_name g t1 = some s ∧
        (s ∈ chosen ∨ ∃ t2 ∈ l, t2 ≠ t1 ∧ get_name g t2 = some s)) →
      (∀ u ∈ l, ∀ s', get_name g u = some s' →
        (s' ∈ chosen ∨ ∃ v ∈ l, v ≠ u ∧ get_name g v = some s') → s' = s) →
      assign_requested g l chosen m = .error (.nameConflictError s) := by
  intro l
  induction l with
  | nil =>
    intro chosen m _ h1 _
    obtain ⟨t1, ht1, _⟩ := h1
    simp at ht1
  | cons t0 rest ih =>
    intro chosen m hnd h1 h2
    cases hn : get_name g t0 with
    | none =>
      obtain ⟨t1, ht1, hname, hdisj⟩ := h1
      have ht1r : t1 ∈ rest := by
        rcases List.mem_cons.mp ht1 with rfl | h'
        · rw [hn] at hname; exact Option.noConfusion hname
        · exact h'
      rw [assign_requested_cons_none hn]
      refine ih chosen m (List.Nodup.of_cons hnd) ⟨t1, ht1r, hname, ?_⟩ ?_
      · rcases hdisj with hc | ⟨t2, ht2, hne, hname2⟩
        · exact Or.inl hc
        · have ht2r : t2 ∈ rest := by
            rcases List.mem_cons.mp ht2 with rfl | h'
            · rw [hn] at hname2; exact Option.noConfusion hname2
            · exact h'
          exact Or.inr ⟨t2, ht2r, hne, hname2⟩
      · intro u hu s' hname' hdisj'
        refine h2 u (by simp [hu]) s' hname' ?_
        rcases hdisj' with hc | ⟨v, hv, hne, hnamev⟩
        · exact Or.inl hc
        · exact Or.inr ⟨v, by simp [hv], hne, hnamev⟩
    | some nm =>
      by_cases hmem : nm ∈ chosen
      · rw [assign_requested_cons_conflict hn hmem]
        have : nm = s := h2 t0 (by simp) nm hn (Or.inl hmem)
        rw [this]
      · rw [assign_requested_cons_free hn hmem]
        obtain ⟨t1, ht1, hname, hdisj⟩ := h1
        have ht0nr : t0 ∉ rest := (List.nodup_cons.mp hnd).1
        rcases List.mem_cons.mp ht1 with he1 | ht1r
        · -- the duplicated name is the head tensor's own, i.e. nm = s
          rw [he1, hn] at hname
          have hss := Option.some.inj hname
          rw [hss]
          rcases hdisj with hc | ⟨t2, ht2, hne2, hname2⟩
          · rw [← hss] at hc
            exact absurd hc hmem
          · have ht2r : t2 ∈ rest := by
              rcases List.mem_cons.mp ht2 with he' | h'
              · exact absurd (he'.trans he1.symm) hne2
              · exact h'
            refine ih (insert s chosen) _ (List.Nodup.of_cons hnd)
              ⟨t2, ht2r, hname2, Or.inl (Finset.mem_insert_self _ _)⟩ ?_
            intro u hu s' hname' hdisj'
            refine h2 u (by simp [hu]) s' hname' ?_
            rcases hdisj' with hc | ⟨v, hv, hne, hnamev⟩
            · rcases Finset.mem_insert.mp hc with he'' | hc
              · rw [he'', ← hss] at hname' ⊢
                exact Or.inr ⟨t0, by simp, fun h' => ht0nr (h' ▸ hu), hn⟩
              · exact Or.inl hc
            · exact Or.inr ⟨v, by simp [hv], hne, hnamev⟩
        · refine ih (insert nm chosen) _ (List.Nodup.of_cons hnd)
            ⟨t1, ht1r, hname, ?_⟩ ?_
          · rcases hdisj with hc | ⟨t2, ht2, hne2, hname2⟩
            · exact Or.inl (Finset.mem_insert_of_mem hc)
            · rcases List.mem_cons.mp ht2 with rfl | ht2r
              · rw [hn] at hname2
                obtain rfl := Option.some.inj hname2
                exact Or.inl (Finset.mem_insert_self _ _)
              · exact Or.inr ⟨t2, ht2r, hne2, hname2⟩
          · intro u hu s' hname' hdisj'
            refine h2 u (by simp [hu]) s' hname' ?_
            rcases hdisj' with hc | ⟨v, hv, hne, hnamev⟩
            · rcases Finset.mem_insert.mp hc with rfl | hc
              · exact Or.inr ⟨t0, by simp, fun h' => ht0nr (h' ▸ hu), hn⟩
              · exact Or.inl hc
            · exact Or.inr ⟨v, by simp [hv], hne, hnamev⟩

/-! ### Properties of the declared-output pass -/

/-- The name the declared-output pass leaves for tensor `t`: the name of the
last output pair referencing `t` (later inserts overwrite earlier ones). -/
def output_name (outputs : List (String × Nat)) (t : Nat) : Option String :=
  outputs.foldl (fun acc pr => if pr.2 = t then some pr.1 else acc) none

theorem output_name_foldl (t : Nat) :
    ∀ (l : List (String × Nat)) (init : Option String),
      l.foldl (fun acc pr => if pr.2 = t then some pr.1 else acc) init =
        match output_name l t with
        | some s => some s
        | none => init := by
  intro l
  induction l with
  | nil => intro init; simp [output_name]
  | cons pr rest ihl =>
    intro init
    have hcons : output_name (pr :: rest) t =
        rest.foldl (fun acc pr => if pr.2 = t then some pr.1 else acc)
          (if pr.2 = t then some pr.1 else none) := by
      simp [output_name]
    rw [List.foldl_cons, ihl, hcons, ihl]
    cases h : output_name rest t with
    | none => by_cases hp : pr.2 = t <;> simp [hp]
    | some s => rfl

theorem output_name_cons (pr : String × Nat) (rest : List (String × Nat)) (t : Nat) :
    output_name (pr :: rest) t =
      match output_name rest t with
      | some s => some s
      | none => if pr.2 = t then some pr.1 else none := by
  show (pr :: rest).foldl (fun acc pr => if pr.2 = t then some pr.1 else acc) none = _
  rw [List.foldl_cons, output_name_foldl]

theorem output_name_mem {outputs : List (String × Nat)} {t : Nat} {s : String}
    (h : output_name outputs t = some s) : (s, t) ∈ outputs := by
  induction outputs with
  | nil => simp [output_name] at h
  | cons pr rest ihl =>
    rw [output_name_cons] at h
    cases h' : output_name rest t with
    | some s' =>
      rw [h'] at h
      obtain rfl := Option.some.inj h
      exact List.mem_cons_of_mem _ (ihl h')
    | none =>
      rw [h'] at h
      by_cases hp : pr.2 = t
      · rw [if_pos hp] at h
        have hps := Option.some.inj h
        have hpr : pr = (s, t) := by
          cases pr
          simp only [Prod.mk.injEq]
          simp at hp hps
          exact ⟨hps, hp⟩
        rw [← hpr]
        simp
      · rw [if_neg hp] at h
        exact Option.noConfusion h

theorem output_name_eq_none_iff {outputs : List (String × Nat)} {t : Nat} :
    output_name outputs t = none ↔ ∀ pr ∈ outputs, pr.2 ≠ t := by
  induction outputs with
  | nil => simp [output_name]
  | cons pr rest ihl =>
    rw [output_name_cons]
    cases h' : output_name rest t with
    | some s' =>
      simp only []
      constructor
      · intro h; exact Option.noConfusion h
      · intro h
        exact absurd (ihl.mpr fun q hq => h q (by simp [hq])) (by simp [h'])
    | none =>
      simp only []
      constructor
      · intro h q hq
        rcases List.mem_cons.mp hq with rfl | hq
        · intro hc
          rw [if_pos hc] at h
          exact Option.noConfusion h
        · exact (ihl.mp h') q hq
      · intro h
        rw [if_neg (h pr (by simp))]

theorem assign_output_names_lookup (outputs : List (String × Nat)) :
    ∀ (cm : Finset String × NameMap) (t : Nat),
      alookup (assign_output_names outputs cm).2 t =
        match output_name outputs t with
        | some s => some s
        | none => alookup cm.2 t := by
  intro cm t
  induction outputs generalizing cm with
  | nil => simp [assign_output_names, output_name]
  | cons pr rest ihl =>
    have hstep : assign_output_names (pr :: rest) cm =
        assign_output_names rest (insert pr.1 cm.1, (pr.2, pr.1) :: cm.2) := by
      simp [assign_output_names]
    rw [hstep, ihl, output_name_cons]
    cases h' : output_name rest t with
    | some s' => rfl
    | none =>
      simp only [alookup_cons]
      by_cases hp : pr.2 = t <;> simp [hp]

theorem assign_output_names_chosen (outputs : List (String × Nat)) :
    ∀ (cm : Finset String × NameMap) (s : String),
      s ∈ (assign_output_names outputs cm).1 ↔
        s ∈ cm.1 ∨ ∃ pr ∈ outputs, pr.1 = s := by
  intro cm s
  induction outputs generalizing cm with
  | nil => simp [assign_output_names]
  | cons pr rest ihl =>
    have hstep : assign_output_names (pr :: rest) cm =
        assign_output_names rest (insert pr.1 cm.1, (pr.2, pr.1) :: cm.2) := by
      simp [assign_output_names]
    rw [hstep, ihl]
    constructor
    · rintro (hc | ⟨q, hq, hqs⟩)
      · rcases Finset.mem_insert.mp hc with rfl | hc
        · exact Or.inr ⟨pr, by simp, rfl⟩
        · exact Or.inl hc
      · exact Or.inr ⟨q, by simp [hq], hqs⟩
    · rintro (hc | ⟨q, hq, hqs⟩)
      · exact Or.inl (Finset.mem_insert_of_mem hc)
      · rcases List.mem_cons.mp hq with rfl | hq
        · exact Or.inl (by rw [hqs]; exact Finset.mem_insert_self _ _)
        · exact Or.inr ⟨q, hq, hqs⟩

/-! ### The combined name table -/

/-- Decomposition of a successful `assign_names` run into its three passes. -/
theorem assign_names_ok {g : Graph} {outputs : List (String × Nat)}
    {l : List Nat} {r : Finset String × NameMap}
    (h : assign_names g outputs l = .ok r) :
    ∃ cm, assign_requested g l ∅ [] = .ok cm ∧
      r = assign_remaining l (assign_output_names outputs cm).1
        (assign_output_names outputs cm).2 0 := by
  unfold assign_names at h
  cases hA : assign_requested g l ∅ [] with
  | error e => rw [hA] at h; exact absurd h (by simp)
  | ok cm =>
    rw [hA] at h
    exact ⟨cm, rfl, (Except.ok.inj h).symm⟩

/-- `assign_names` fails exactly when the requested-name pass fails. -/
theorem assign_names_err {g : Graph} {outputs : List (String × Nat)}
    {l : List Nat} {e : Error} (h : assign_requested g l ∅ [] = .error e) :
    assign_names g outputs l = .error e := by
  unfold assign_names
  rw [h]

/-- The name `build_proto`'s name table assigns to tensor `t` (reading the
table produced by `assign_names`). -/
def assign_lookup (g : Graph) (outputs : List (String × Nat)) (l : List Nat)
    (t : Nat) : Option String :=
  match assign_names g outputs l with
  | .ok r => alookup r.2 t
  | .error _ => none

def Run.isOk {α : Type} : Run α → Bool
  | .ok _ => true
  | _ => false

theorem Run.isOk_iff {α : Type} {r : Run α} : r.isOk = true ↔ ∃ v, r = .ok v := by
  cases r <;> simp [Run.isOk]

/-- If `build_proto` produced a descriptor, the naming phase succeeded. -/
theorem build_proto_ok_assign_ok {g : Graph} {inputs : List Nat}
    {outputs : List (String × Nat)} {ws : WeightStorageStrategy}
    {nodeList tensorList : List Nat}
    (h : (build_proto g inputs outputs ws nodeList tensorList).isOk = true) :
    ∃ r, assign_names g outputs tensorList = .ok r := by
  obtain ⟨d, hd⟩ := Run.isOk_iff.mp h
  unfold build_proto at hd
  cases hA : assign_names g outputs tensorList with
  | error e => rw [hA] at hd; exact absurd hd (by simp)
  | ok r => exact ⟨r, rfl⟩

/-- If the naming phase fails, `build_proto` propagates the same error. -/
theorem build_proto_assign_err {g : Graph} {inputs : List Nat}
    {outputs : List (String × Nat)} {ws : WeightStorageStrategy}
    {nodeList tensorList : List Nat} {e : Error}
    (h : assign_names g outputs tensorList = .error e) :
    build_proto g inputs outputs ws nodeList tensorList = .err e := by
  unfold build_proto
  rw [h]

/-- Every binding of the completed name table is a claimed name, and the
completed table is defined on every listed tensor. -/
theorem assign_names_ok_inv {g : Graph} {outputs : List (String × Nat)}
    {l : List Nat} {r : Finset String × NameMap}
    (h : assign_names g outputs l = .ok r) :
    (∀ t s, alookup r.2 t = some s → s ∈ r.1) ∧
    (∀ t ∈ l, (alookup r.2 t).isSome = true) := by
  obtain ⟨cm, hA, hr⟩ := assign_names_ok h
  set cm2 := assign_output_names outputs cm with hcm2
  have hinvB : ∀ t s, alookup cm2.2 t = some s → s ∈ cm2.1 := by
    intro t s hs
    rw [assign_output_names_lookup outputs cm t] at hs
    cases ho : output_name outputs t with
    | some s' =>
      rw [ho] at hs
      have hs' : s' = s := Option.some.inj hs
      refine (assign_output_names_chosen outputs cm s).mpr (Or.inr ⟨(s, t), ?_, rfl⟩)
      rw [← hs']
      exact output_name_mem ho
    | none =>
      rw [ho] at hs
      have hs' : alookup cm.2 t = some s := hs
      rw [assign_requested_lookup hA t] at hs'
      by_cases hc : t ∈ l ∧ (get_name g t).isSome = true
      · rw [if_pos hc] at hs'
        exact (assign_output_names_chosen outputs cm s).mpr
          (Or.inl ((assign_requested_ok_chosen hA s).mpr (Or.inr ⟨t, hc.1, hs'⟩)))
      · rw [if_neg hc] at hs'
        exact absurd hs' (by simp [alookup])
  have hC := assign_remaining_spec l cm2.1 cm2.2 0 hinvB
  rw [hr]
  exact ⟨hC.2.2.2.1, hC.2.1⟩

/-- Injectivity of the completed name table, under the two conditions the
unchecked output pass needs: declared-output names are distinct across
distinct output tensors, and no declared-output name equals the explicit name
of a different listed tensor. -/
theorem assign_names_ok_injective {g : Graph} {outputs : List (String × Nat)}
    {l : List Nat} {r : Finset String × NameMap}
    (h : assign_names g outputs l = .ok r)
    (hnd : l.Nodup)
    (hout_inj : ∀ pr1 ∈ outputs, ∀ pr2 ∈ outputs, pr1.2 ≠ pr2.2 → pr1.1 ≠ pr2.1)
    (hcross : ∀ pr ∈ outputs, ∀ t ∈ l, t ≠ pr.2 → get_name g t ≠ some pr.1) :
    ∀ t1 t2 s, alookup r.2 t1 = some s → alookup r.2 t2 = some s → t1 = t2 := by
  obtain ⟨cm, hA, hr⟩ := assign_names_ok h
  set cm2 := assign_output_names outputs cm with hcm2
  -- a binding after the output pass is either the last output name of the
  -- tensor or its explicit requested name
  have hBchar : ∀ t s, alookup cm2.2 t = some s →
      output_name outputs t = some s ∨
        (output_name outputs t = none ∧ t ∈ l ∧ get_name g t = some s) := by
    intro t s hs
    rw [assign_output_names_lookup outputs cm t] at hs
    cases ho : output_name outputs t with
    | some s' =>
      rw [ho] at hs
      have hs' : s' = s := Option.some.inj hs
      exact Or.inl (by rw [hs'])
    | none =>
      rw [ho] at hs
      have hs' : alookup cm.2 t = some s := hs
      rw [assign_requested_lookup hA t] at hs'
      by_cases hc : t ∈ l ∧ (get_name g t).isSome = true
      · rw [if_pos hc] at hs'
        exact Or.inr ⟨rfl, hc.1, hs'⟩
      · rw [if_neg hc] at hs'
        exact absurd hs' (by simp [alookup])
  have hBinj : ∀ t1 t2 s, alookup cm2.2 t1 = some s → alookup cm2.2 t2 = some s →
      t1 = t2 := by
    intro t1 t2 s h1 h2
    by_contra hne
    rcases hBchar t1 s h1 with ho1 | ⟨_, ht1, hn1⟩ <;>
      rcases hBchar t2 s h2 with ho2 | ⟨_, ht2, hn2⟩
    · exact hout_inj (s, t1) (output_name_mem ho1) (s, t2) (output_name_mem ho2)
        hne rfl
    · exact hcross (s, t1) (output_name_mem ho1) t2 ht2 (fun hc => hne (hc.symm)) hn2
    · exact hcross (s, t2) (output_name_mem ho2) t1 ht1 (fun hc => hne hc) hn1
    · exact assign_requested_ok_distinct hA hnd t1 ht1 t2 ht2 hne s hn1 hn2
  have hinvB : ∀ t s, alookup cm2.2 t = some s → s ∈ cm2.1 := by
    intro t s hs
    rcases hBchar t s hs with ho | ⟨_, ht, hn⟩
    · exact (assign_output_names_chosen outputs cm s).mpr
        (Or.inr ⟨(s, t), output_name_mem ho, rfl⟩)
    · exact (assign_output_names_chosen outputs cm s).mpr
        (Or.inl ((assign_requested_ok_chosen hA s).mpr (Or.inr ⟨t, ht, hn⟩)))
  have hC := assign_remaining_spec l cm2.1 cm2.2 0 hinvB
  intro t1 t2 s h1 h2
  rw [hr] at h1 h2
  rcases hC.2.2.1 t1 s h1 with hold1 | ⟨hnone1, hfresh1, _⟩ <;>
    rcases hC.2.2.1 t2 s h2 with hold2 | ⟨hnone2, hfresh2, _⟩
  · exact hBinj t1 t2 s hold1 hold2
  · exact absurd (hinvB t1 s hold1) hfresh2
  · exact absurd (hinvB t2 s hold2) hfresh1
  · by_contra hne
    exact hC.2.2.2.2.2 t1 t2 s hne hnone1 hnone2 h1 h2

/-- A declared output's last caller-given name always overrides whatever the
table held for that tensor (the output pass of `lib.rs` 115-118 inserts
unconditionally). -/
theorem assign_names_output_override {g : Graph} {outputs : List (String × Nat)}
    {l : List Nat} {r : Finset String × NameMap}
    (h : assign_names g outputs l = .ok r) :
    ∀ t s', output_name outputs t = some s' → alookup r.2 t = some s' := by
  obtain ⟨cm, hA, hr⟩ := assign_names_ok h
  intro t s' ho
  have hB : alookup (assign_output_names outputs cm).2 t = some s' := by
    rw [assign_output_names_lookup outputs cm t, ho]
  have hinvB : ∀ t s, alookup (assign_output_names outputs cm).2 t = some s →
      s ∈ (assign_output_names outputs cm).1 :=
    fun t s hs => by
      rw [assign_output_names_lookup outputs cm t] at hs
      cases ho' : output_name outputs t with
      | some s'' =>
        rw [ho'] at hs
        have hss : s'' = s := Option.some.inj hs
        refine (assign_output_names_chosen outputs cm s).mpr
          (Or.inr ⟨(s, t), ?_, rfl⟩)
        rw [← hss]
        exact output_name_mem ho'
      | none =>
        rw [ho'] at hs
        have hs' : alookup cm.2 t = some s := hs
        rw [assign_requested_lookup hA t] at hs'
        by_cases hc : t ∈ l ∧ (get_name g t).isSome = true
        · rw [if_pos hc] at hs'
          exact (assign_output_names_chosen outputs cm s).mpr
            (Or.inl ((assign_requested_ok_chosen hA s).mpr (Or.inr ⟨t, hc.1, hs'⟩)))
        · rw [if_neg hc] at hs'
          exact absurd hs' (by simp [alookup])
  have hC := assign_remaining_spec l (assign_output_names outputs cm).1
    (assign_output_names outputs cm).2 0 hinvB
  rw [hr]
  exact hC.1 t s' hB

/-- A listed tensor's explicit requested name is kept verbatim whenever the
tensor is not also a declared output. -/
theorem assign_names_explicit_kept {g : Graph} {outputs : List (String × Nat)}
    {l : List Nat} {r : Finset String × NameMap}
    (h : assign_names g outputs l = .ok r) :
    ∀ t ∈ l, ∀ s, get_name g t = some s → output_name outputs t = none →
      alookup r.2 t = some s := by
  obtain ⟨cm, hA, hr⟩ := assign_names_ok h
  intro t ht s hn ho
  have hB : alookup (assign_output_names outputs cm).2 t = some s := by
    rw [assign_output_names_lookup outputs cm t, ho,
      assign_requested_lookup hA t, if_pos ⟨ht, by rw [hn]; rfl⟩, hn]
  have hinvB : ∀ t s, alookup (assign_output_names outputs cm).2 t = some s →
      s ∈ (assign_output_names outputs cm).1 :=
    fun t s hs => by
      rw [assign_output_names_lookup outputs cm t] at hs
      cases ho' : output_name outputs t with
      | some s'' =>
        rw [ho'] at hs
        have hss : s'' = s := Option.some.inj hs
        refine (assign_output_names_chosen outputs cm s).mpr
          (Or.inr ⟨(s, t), ?_, rfl⟩)
        rw [← hss]
        exact output_name_mem ho'
      | none =>
        rw [ho'] at hs
        have hs' : alookup cm.2 t = some s := hs
        rw [assign_requested_lookup hA t] at hs'
        by_cases hc : t ∈ l ∧ (get_name g t).isSome = true
        · rw [if_pos hc] at hs'
          exact (assign_output_names_chosen outputs cm s).mpr
            (Or.inl ((assign_requested_ok_chosen hA s).mpr (Or.inr ⟨t, hc.1, hs'⟩)))
        · rw [if_neg hc] at hs'
          exact absurd hs' (by simp [alookup])
  have hC := assign_remaining_spec l (assign_output_names outputs cm).1
    (assign_output_names outputs cm).2 0 hinvB
  rw [hr]
  exact hC.1 t s hB

/-! ### Claims C1-C4: the name table -/

/-- Counterexample graph for C1/C3-style collisions: value 0 is a leaf with
the explicit name `"x"`, value 1 an unnamed operation consuming it. -/
def Gc1 : Graph :=
  ⟨[.leaf (some "x") ⟨.f32, []⟩ none, .singleOp none "Relu" [0] ⟨.f32, []⟩]⟩

/-- Claim C1, counterexample: declaring the operation's output under the name
`"x"` — the explicit name of the other reachable tensor — makes `build_proto`
return a descriptor whose name table maps the two distinct reachable tensors
0 and 1 to the same name `"x"`, so the claimed injectivity fails. -/
theorem c1_counterexample :
    wf_check Gc1 = true ∧
    collect_nodes Gc1 [("x", 1)] = {1} ∧
    collect_tensors Gc1 [("x", 1)] = {0, 1} ∧
    (build_proto Gc1 [] [("x", 1)] .none [1] [1, 0]).isOk = true ∧
    assign_lookup Gc1 [("x", 1)] [1, 0] 0 = some "x" ∧
    assign_lookup Gc1 [("x", 1)] [1, 0] 1 = some "x" ∧
    (0 : Nat) ≠ 1 := by decide

/-- Claim C1 (amended): whenever `build_proto` returns a descriptor, the name
table is injective on tensor identities, provided additionally that (a) the
declared-output names are pairwise distinct across distinct output tensors
and (b) no declared-output name coincides with the explicit name of a
different listed tensor — the unchecked output pass of `lib.rs` 115-118 makes
these two side conditions necessary. -/
theorem c1_name_table_injective
    (g : Graph) (inputs : List Nat) (outputs : List (String × Nat))
    (ws : WeightStorageStrategy) (nodeList tensorList : List Nat)
    (hok : (build_proto g inputs outputs ws nodeList tensorList).isOk = true)
    (hnd : tensorList.Nodup)
    (hout_inj : ∀ pr1 ∈ outputs, ∀ pr2 ∈ outputs, pr1.2 ≠ pr2.2 → pr1.1 ≠ pr2.1)
    (hcross : ∀ pr ∈ outputs, ∀ t ∈ tensorList, t ≠ pr.2 → get_name g t ≠ some pr.1) :
    ∀ t1 t2 s, assign_lookup g outputs tensorList t1 = some s →
      assign_lookup g outputs tensorList t2 = some s → t1 = t2 := by
  obtain ⟨r, hr⟩ := build_proto_ok_assign_ok hok
  intro t1 t2 s h1 h2
  unfold assign_lookup at h1 h2
  rw [hr] at h1 h2
  exact assign_names_ok_injective hr hnd hout_inj hcross t1 t2 s h1 h2

/-- Graph for the C1 witness: explicit name `"a"`, output declared `"y"`. -/
def Gw1 : Graph :=
  ⟨[.leaf (some "a") ⟨.f32, []⟩ none, .singleOp none "Relu" [0] ⟨.f32, []⟩]⟩

theorem c1_witness :
    assign_lookup Gw1 [("y", 1)] [1, 0] 0 = some "a" ∧
    assign_lookup Gw1 [("y", 1)] [1, 0] 1 ≠ some "a" :=
  ⟨by decide, fun h =>
    absurd
      (c1_name_table_injective Gw1 [] [("y", 1)] .none [1] [1, 0]
        (by decide) (by decide) (by decide) (by decide) 1 0 "a" h (by decide))
      (by decide)⟩

/-- Claim C2: if exactly one explicit name `s` is duplicated among the
collected tensors (carried by the two distinct reachable tensors `t1`, `t2`),
`build_proto` fails with `NameConflictError s` and produces no descriptor,
whatever iteration order the hash set yields. -/
theorem c2_name_conflict
    (g : Graph) (inputs : List Nat) (outputs : List (String × Nat))
    (ws : WeightStorageStrategy) (nodeList tensorList : List Nat)
    (t1 t2 : Nat) (s : String)
    (hnd : tensorList.Nodup)
    (hTF : tensorList.toFinset = collect_tensors g outputs)
    (ht1 : t1 ∈ collect_tensors g outputs) (ht2 : t2 ∈ collect_tensors g outputs)
    (hne : t1 ≠ t2)
    (hn1 : get_name g t1 = some s) (hn2 : get_name g t2 = some s)
    (huniq : ∀ u ∈ tensorList, ∀ v ∈ tensorList, u ≠ v → ∀ s',
      get_name g u = some s' → get_name g v = some s' → s' = s) :
    build_proto g inputs outputs ws nodeList tensorList =
      .err (.nameConflictError s) := by
  have ht1l : t1 ∈ tensorList := by
    rw [← List.mem_toFinset, hTF]; exact ht1
  have ht2l : t2 ∈ tensorList := by
    rw [← List.mem_toFinset, hTF]; exact ht2
  refine build_proto_assign_err (assign_names_err ?_)
  refine assign_requested_conflict tensorList ∅ [] hnd
    ⟨t1, ht1l, hn1, Or.inr ⟨t2, ht2l, fun h => hne h.symm, hn2⟩⟩ ?_
  intro u hu s' hnu hdisj
  rcases hdisj with hc | ⟨v, hv, hvu, hnv⟩
  · exact absurd hc (Finset.not_mem_empty s')
  · exact huniq v hv u hu hvu s' hnv hnu

/-- Graph for the C2 witness: two distinct leaves both explicitly named
`"x"`, consumed by one operation. -/
def Gw2 : Graph :=
  ⟨[.leaf (some "x") ⟨.f32, []⟩ none, .leaf (some "x") ⟨.f32, []⟩ none,
    .singleOp none "Add" [0, 1] ⟨.f32, []⟩]⟩

theorem c2_witness :
    build_proto Gw2 [] [("y", 2)] .none [2] [2, 0, 1] =
      .err (.nameConflictError "x") :=
  c2_name_conflict Gw2 [] [("y", 2)] .none [2] [2, 0, 1] 0 1 "x"
    (by decide) (by decide) (by decide) (by decide) (by decide)
    (by decide) (by decide) (by decide)

/-- Counterexample graph for C3: a single leaf with explicit name `"a"`,
declared as an output under the different name `"b"`. -/
def Gc3 : Graph := ⟨[.leaf (some "a") ⟨.f32, []⟩ none]⟩

/-- Claim C3, counterexample: tensor 0 carries the explicit name `"a"` and is
reachable, `build_proto` returns a descriptor, yet the name table maps it to
the declared-output name `"b"` — the output pass of `lib.rs` 115-118
overwrites the explicit binding instead of keeping it verbatim. -/
theorem c3_counterexample :
    wf_check Gc3 = true ∧
    collect_tensors Gc3 [("b", 0)] = {0} ∧
    get_name Gc3 0 = some "a" ∧
    (build_proto Gc3 [] [("b", 0)] .none [] [0]).isOk = true ∧
    assign_lookup Gc3 [("b", 0)] [0] 0 = some "b" := by decide

/-- Claim C3 (amended): whenever `build_proto` returns a descriptor, a listed
tensor with explicit name `s` keeps `s` verbatim in the name table provided
it is not also a declared output; when it is a declared output, the table
instead holds the caller-given name of the last output pair naming it. -/
theorem c3_explicit_names
    (g : Graph) (inputs : List Nat) (outputs : List (String × Nat))
    (ws : WeightStorageStrategy) (nodeList tensorList : List Nat)
    (t : Nat) (s : String)
    (hok : (build_proto g inputs outputs ws nodeList tensorList).isOk = true)
    (ht : t ∈ tensorList)
    (hn : get_name g t = some s) :
    ((∀ pr ∈ outputs, pr.2 ≠ t) →
      assign_lookup g outputs tensorList t = some s) ∧
    (∀ s', output_name outputs t = some s' →
      assign_lookup g outputs tensorList t = some s') := by
  obtain ⟨r, hr⟩ := build_proto_ok_assign_ok hok
  constructor
  · intro hno
    unfold assign_lookup
    rw [hr]
    exact assign_names_explicit_kept hr t ht s hn (output_name_eq_none_iff.mpr hno)
  · intro s' ho
    unfold assign_lookup
    rw [hr]
    exact assign_names_output_override hr t s' ho

/-- Graph for the C3 witness: leaf 0 named `"a"` feeding operation 1; the
declared output is the operation, so tensor 0 is not an output. -/
def Gw3 : Graph :=
  ⟨[.leaf (some "a") ⟨.f32, []⟩ none, .singleOp none "Neg" [0] ⟨.f32, []⟩]⟩

theorem c3_witness :
    assign_lookup Gw3 [("out", 1)] [1, 0] 0 = some "a" :=
  (c3_explicit_names Gw3 [] [("out", 1)] .none [1] [1, 0] 0 "a"
    (by decide) (by decide) (by decide)).1 (by decide)

/-- Every binding left by the requested-name and output passes is a claimed
name. -/
theorem assign_output_names_inv {g : Graph} {outputs : List (String × Nat)}
    {l : List Nat} {cm : Finset String × NameMap}
    (hA : assign_requested g l ∅ [] = .ok cm) :
    ∀ t s, alookup (assign_output_names outputs cm).2 t = some s →
      s ∈ (assign_output_names outputs cm).1 := by
  intro t s hs
  rw [assign_output_names_lookup outputs cm t] at hs
  cases ho : output_name outputs t with
  | some s' =>
    rw [ho] at hs
    have hss : s' = s := Option.some.inj hs
    refine (assign_output_names_chosen outputs cm s).mpr (Or.inr ⟨(s, t), ?_, rfl⟩)
    rw [← hss]
    exact output_name_mem ho
  | none =>
    rw [ho] at hs
    have hs' : alookup cm.2 t = some s := hs
    rw [assign_requested_lookup hA t] at hs'
    by_cases hc : t ∈ l ∧ (get_name g t).isSome = true
    · rw [if_pos hc] at hs'
      exact (assign_output_names_chosen outputs cm s).mpr
        (Or.inl ((assign_requested_ok_chosen hA s).mpr (Or.inr ⟨t, hc.1, hs'⟩)))
    · rw [if_neg hc] at hs'
      exact absurd hs' (by simp [alookup])

/-- A tensor with neither an output name nor an explicit name is unbound
after the first two passes. -/
theorem assign_output_names_none {g : Graph} {outputs : List (String × Nat)}
    {l : List Nat} {cm : Finset String × NameMap}
    (hA : assign_requested g l ∅ [] = .ok cm) {t : Nat}
    (ho : output_name outputs t = none) (hn : get_name g t = none) :
    alookup (assign_output_names outputs cm).2 t = none := by
  rw [assign_output_names_lookup outputs cm t, ho, assign_requested_lookup hA t,
    if_neg (fun hc => by rw [hn] at hc; simp at hc)]
  rfl

/-- Non-contiguity example graph for C4: leaf 0 explicitly claims the name
`tensor_1`, leaves 1 and 2 are unnamed. -/
def Gc4 : Graph :=
  ⟨[.leaf (some "tensor_1") ⟨.f32, []⟩ none, .leaf none ⟨.f32, []⟩ none,
    .leaf none ⟨.f32, []⟩ none, .singleOp none "Concat" [0, 1, 2] ⟨.f32, []⟩]⟩

/-- Claim C4: generated names.  (1) The generation loop returns
`tensor_<counter>` for the least counter at or beyond the running value whose
candidate is unclaimed — every skipped candidate was claimed, so the counter
strictly increases on every attempt.  (2) Whenever `build_proto` returns a
descriptor, every listed tensor with neither an explicit nor a declared-output
name is bound to some `tensor_<k>`, that name coincides with no explicit or
declared-output name, and two such distinct tensors receive distinct names.
(3) Generated counters need not be contiguous: in `Gc4`, where the explicit
name `tensor_1` is claimed, the two unnamed leaves receive `tensor_0` and
`tensor_2`. -/
theorem c4_generated_names
    (g : Graph) (inputs : List Nat) (outputs : List (String × Nat))
    (ws : WeightStorageStrategy) (nodeList tensorList : List Nat)
    (hok : (build_proto g inputs outputs ws nodeList tensorList).isOk = true) :
    (∀ (chosen : Finset String) (next : Nat),
      (findFreeName chosen next (chosen.card + 1)).1 =
        tensorName (findFreeName chosen next (chosen.card + 1)).2 ∧
      next ≤ (findFreeName chosen next (chosen.card + 1)).2 ∧
      (findFreeName chosen next (chosen.card + 1)).1 ∉ chosen ∧
      (∀ i, next ≤ i → i < (findFreeName chosen next (chosen.card + 1)).2 →
        tensorName i ∈ chosen)) ∧
    (∀ t ∈ tensorList, output_name outputs t = none → get_name g t = none →
      (∃ k, assign_lookup g outputs tensorList t = some (tensorName k)) ∧
      (∀ s, assign_lookup g outputs tensorList t = some s →
        (∀ u ∈ tensorList, get_name g u ≠ some s) ∧
        (∀ pr ∈ outputs, pr.1 ≠ s)) ∧
      (∀ t2 ∈ tensorList, t2 ≠ t → output_name outputs t2 = none →
        get_name g t2 = none → ∀ s,
          assign_lookup g outputs tensorList t = some s →
          assign_lookup g outputs tensorList t2 ≠ some s)) ∧
    (assign_lookup Gc4 [("y", 3)] [3, 0, 1, 2] 1 = some (tensorName 0) ∧
      assign_lookup Gc4 [("y", 3)] [3, 0, 1, 2] 2 = some (tensorName 2)) := by
  obtain ⟨r, hr⟩ := build_proto_ok_assign_ok hok
  obtain ⟨cm, hA, hrem⟩ := assign_names_ok hr
  have hinvB := @assign_output_names_inv g outputs tensorList cm hA
  have hC := assign_remaining_spec tensorList (assign_output_names outputs cm).1
    (assign_output_names outputs cm).2 0 hinvB
  have hlk : ∀ t, assign_lookup g outputs tensorList t = alookup r.2 t := by
    intro t
    unfold assign_lookup
    rw [hr]
  refine ⟨fun chosen next => findFreeName_default_spec chosen next, ?_, by decide⟩
  intro t ht ho hn
  have hBnone := assign_output_names_none hA ho hn
  refine ⟨?_, ?_, ?_⟩
  · have hsome := hC.2.1 t ht
    rw [← hrem] at hsome
    obtain ⟨s, hs⟩ := Option.isSome_iff_exists.mp hsome
    rcases hC.2.2.1 t s (by rw [← hrem]; exact hs) with hold | ⟨_, _, k, hk, _⟩
    · rw [hBnone] at hold
      exact absurd hold (by simp)
    · exact ⟨k, by rw [hlk t, hs, hk]⟩
  · intro s hs
    rw [hlk t] at hs
    rcases hC.2.2.1 t s (by rw [hrem] at hs; exact hs) with hold | ⟨_, hfresh, _⟩
    · rw [hBnone] at hold
      exact absurd hold (by simp)
    · constructor
      · intro u hu hnu
        refine hfresh ((assign_output_names_chosen outputs cm s).mpr (Or.inl ?_))
        exact (assign_requested_ok_chosen hA s).mpr (Or.inr ⟨u, hu, hnu⟩)
      · intro pr hpr hps
        exact hfresh ((assign_output_names_chosen outputs cm s).mpr
          (Or.inr ⟨pr, hpr, hps⟩))
  · intro t2 ht2 hne2 ho2 hn2 s hs1 hs2
    rw [hlk t] at hs1
    rw [hlk t2] at hs2
    rw [hrem] at hs1 hs2
    exact hC.2.2.2.2.2 t t2 s (fun h => hne2 h.symm) hBnone
      (assign_output_names_none hA ho2 hn2) hs1 hs2

theorem c4_witness :
    assign_lookup Gc4 [("y", 3)] [3, 0, 1, 2] 1 = some (tensorName 0) ∧
    assign_lookup Gc4 [("y", 3)] [3, 0, 1, 2] 2 ≠ some (tensorName 0) :=
  ⟨by decide,
    ((c4_generated_names Gc4 [] [("y", 3)] .none [3] [3, 0, 1, 2]
        (by decide)).2.1 1 (by decide) (by decide) (by decide)).2.2 2
      (by decide) (by decide) (by decide) (by decide) (tensorName 0) (by decide)⟩

/-! ### Claims C5-C6: reachability collection -/

/-- Claim C5: for any root set the collected operation and value sets contain
each reachable identity exactly once — membership is exactly transitive
reachability, independent of visitation order — and collecting from any
permutation of the roots yields the very same sets. -/
theorem c5_reachability_sets
    (g : Graph) (outputs : List (String × Nat)) (hwf : WF g) :
    (∀ x, x ∈ collect_nodes g outputs ↔ ∃ pr ∈ outputs, NReach g pr.2 x) ∧
    (∀ x, x ∈ collect_tensors g outputs ↔
      ∃ pr ∈ outputs, x = pr.2 ∨ TReach g pr.2 x) ∧
    (∀ outputs', outputs.Perm outputs' →
      collect_nodes g outputs = collect_nodes g outputs' ∧
      collect_tensors g outputs = collect_tensors g outputs') := by
  refine ⟨collect_nodes_spec hwf outputs, collect_tensors_spec hwf outputs, ?_⟩
  intro outputs' hperm
  constructor
  · apply Finset.ext
    intro x
    rw [collect_nodes_spec hwf outputs x, collect_nodes_spec hwf outputs' x]
    constructor
    · rintro ⟨pr, hpr, h⟩
      exact ⟨pr, hperm.mem_iff.mp hpr, h⟩
    · rintro ⟨pr, hpr, h⟩
      exact ⟨pr, hperm.mem_iff.mpr hpr, h⟩
  · apply Finset.ext
    intro x
    rw [collect_tensors_spec hwf outputs x, collect_tensors_spec hwf outputs' x]
    constructor
    · rintro ⟨pr, hpr, h⟩
      exact ⟨pr, hperm.mem_iff.mp hpr, h⟩
    · rintro ⟨pr, hpr, h⟩
      exact ⟨pr, hperm.mem_iff.mpr hpr, h⟩

/-- Diamond-sharing witness graph for C5: operation 2 consumes the same value
three times. -/
def Gw5 : Graph :=
  ⟨[.leaf none ⟨.f32, []⟩ none, .singleOp none "Relu" [0] ⟨.f32, []⟩,
    .singleOp none "Sum" [1, 1, 1] ⟨.f32, []⟩]⟩

theorem c5_witness :
    collect_tensors Gw5 [("a", 1), ("y", 2)] =
      collect_tensors Gw5 [("y", 2), ("a", 1)] ∧
    collect_nodes Gw5 [("a", 1), ("y", 2)] =
      collect_nodes Gw5 [("y", 2), ("a", 1)] ∧
    collect_nodes Gw5 [("y", 2)] = {1, 2} ∧
    (collect_nodes Gw5 [("y", 2)]).card = 2 := by
  have H2 := c5_reachability_sets Gw5 [("a", 1), ("y", 2)] (by unfold WF; decide)
  have hp := H2.2.2 [("y", 2), ("a", 1)] (by decide)
  exact ⟨hp.2, hp.1, by decide, by decide⟩

/-- Witness graph for C6: operation 1 has two output slots (values 2 and 3);
only slot 0 (value 2) is consumed, by operation 4, the declared output. -/
def Gc6 : Graph :=
  ⟨[.leaf none ⟨.f32, []⟩ none,
    .multiOp none "Split" [0] [2, 3] [⟨.f32, []⟩, ⟨.f32, []⟩],
    .multiSlot 1 0,
    .multiSlot 1 1,
    .singleOp none "Relu" [2] ⟨.f32, []⟩]⟩

/-- Claim C6: a value that is neither a declared output nor reachable from
one (e.g. the unconsumed slot of a 2-output operation) never enters the
collected value set; concretely, in `Gc6` the 2-output operation 1 appears
exactly once in the operation set, the consumed slot 2 is collected and the
unconsumed slot 3 is not. -/
theorem c6_unconsumed_slot
    (g : Graph) (outputs : List (String × Nat)) (x : Nat)
    (hwf : WF g)
    (hnotout : ∀ pr ∈ outputs, pr.2 ≠ x)
    (hnotreach : ∀ pr ∈ outputs, ¬ TReach g pr.2 x) :
    x ∉ collect_tensors g outputs ∧
    (collect_nodes Gc6 [("y", 4)] = {1, 4} ∧
      (collect_nodes Gc6 [("y", 4)]).card = 2 ∧
      collect_tensors Gc6 [("y", 4)] = {0, 2, 4} ∧
      (2 : Nat) ∈ collect_tensors Gc6 [("y", 4)] ∧
      (3 : Nat) ∉ collect_tensors Gc6 [("y", 4)] ∧
      get_output_tensors Gc6 1 = [2, 3]) := by
  refine ⟨?_, by decide, by decide, by decide, by decide, by decide, by decide⟩
  intro hmem
  obtain ⟨pr, hpr, h⟩ := (collect_tensors_spec hwf outputs x).mp hmem
  rcases h with rfl | h
  · exact hnotout pr hpr rfl
  · exact hnotreach pr hpr h

theorem c6_witness : (3 : Nat) ∉ collect_tensors Gc6 [("y", 4)] :=
  (c6_unconsumed_slot Gc6 [("y", 4)] 3 (by unfold WF; decide)
    (by decide)
    (fun pr hpr hre => by
      have h3 : (3 : Nat) ∈ collect_tensors Gc6 [("y", 4)] :=
        (collect_tensors_spec (by unfold WF; decide) [("y", 4)] 3).mpr ⟨pr, hpr, Or.inr hre⟩
      exact absurd h3 (by decide))).1

/-! ### Claims C7-C8: weight strategies and error propagation -/

/-- The strategy-independent part of an initializer entry: its name, dtype
and resolved dimensions (everything but the payload representation). -/
def initializer_skel (ti : TensorProto) : String × DType × List Nat :=
  (ti.name, ti.dtype, ti.dims)

/-- Initializer generation under two different manager states: both succeed
or fail together, and on success the entries agree on everything except the
payload representation. -/
theorem gen_initializers_skeleton {g : Graph} {m : NameMap} {st1 st2 : ManagerState} :
    ∀ {l : List Nat} {l1 l2 : List TensorProto},
      gen_initializers g st1 m l = .ok l1 → gen_initializers g st2 m l = .ok l2 →
      l1.map initializer_skel = l2.map initializer_skel := by
  intro l
  induction l with
  | nil =>
    intro l1 l2 h1 h2
    simp only [gen_initializers] at h1 h2
    obtain rfl := Run.ok.inj h1
    obtain rfl := Run.ok.inj h2
    rfl
  | cons t rest ih =>
    intro l1 l2 h1 h2
    simp only [gen_initializers] at h1 h2
    cases hlk : alookup m t with
    | none =>
      rw [hlk] at h1
      exact absurd h1 (by simp)
    | some nm =>
      rw [hlk] at h1 h2
      unfold get_initializer at h1 h2
      cases hld : leaf_data g t with
      | none =>
        rw [hld] at h1 h2
        exact ih h1 h2
      | some bytes =>
        rw [hld] at h1 h2
        cases hrd : resolve_dims (tensor_info g t).shape with
        | error e =>
          rw [hrd] at h1
          exact absurd h1 (by simp)
        | ok dims =>
          rw [hrd] at h1 h2
          cases hr1 : gen_initializers g st1 m rest with
          | ok r1 =>
            cases hr2 : gen_initializers g st2 m rest with
            | ok r2 =>
              rw [hr1] at h1
              rw [hr2] at h2
              obtain rfl := Run.ok.inj h1
              obtain rfl := Run.ok.inj h2
              simp only [List.map_cons]
              rw [ih hr1 hr2]
              rfl
            | err e => rw [hr2] at h2; exact absurd h2 (by simp)
            | panicked => rw [hr2] at h2; exact absurd h2 (by simp)
          | err e => rw [hr1] at h1; exact absurd h1 (by simp)
          | panicked => rw [hr1] at h1; exact absurd h1 (by simp)

/-- Claim C7: assembling the same graph under the three weight strategies,
when all three succeed, yields descriptors with identical node lists,
declared-input lists, declared-output lists, value-info lists and top-level
metadata; the initializer entries agree on name, dtype and dimensions, only
their payload representation may differ.  (Name assignments are identical by
construction: `assign_names` does not take the strategy as an argument.) -/
theorem c7_strategy_equivalence
    (g : Graph) (inputs : List Nat) (outputs : List (String × Nat))
    (nodeList tensorList : List Nat) (path : String) (d1 d2 d3 : ModelProto)
    (h1 : build_proto g inputs outputs .none nodeList tensorList = .ok d1)
    (h2 : build_proto g inputs outputs (.binFile path) nodeList tensorList = .ok d2)
    (h3 : build_proto g inputs outputs .embeddedData nodeList tensorList = .ok d3) :
    d1.graph.node = d2.graph.node ∧ d2.graph.node = d3.graph.node ∧
    d1.graph.input = d2.graph.input ∧ d2.graph.input = d3.graph.input ∧
    d1.graph.output = d2.graph.output ∧ d2.graph.output = d3.graph.output ∧
    d1.graph.valueInfo = d2.graph.valueInfo ∧
    d2.graph.valueInfo = d3.graph.valueInfo ∧
    d1.graph.initializer.map initializer_skel =
      d2.graph.initializer.map initializer_skel ∧
    d2.graph.initializer.map initializer_skel =
      d3.graph.initializer.map initializer_skel ∧
    d1.irVersion = d2.irVersion ∧ d2.irVersion = d3.irVersion ∧
    d1.opsetImport = d2.opsetImport ∧ d2.opsetImport = d3.opsetImport := by
  unfold build_proto at h1 h2 h3
  cases hA : assign_names g outputs tensorList with
  | error e =>
    rw [hA] at h1
    exact absurd h1 (by simp)
  | ok cm =>
    simp only [hA] at h1 h2 h3
    cases hI1 : gen_initializers g
        (finalize_tensor_data (gather_all_weights g tensorList
          (get_manager .none))) cm.2 tensorList with
    | err e => rw [hI1] at h1; exact absurd h1 (by simp)
    | panicked => rw [hI1] at h1; exact absurd h1 (by simp)
    | ok inits1 =>
    cases hI2 : gen_initializers g
        (finalize_tensor_data (gather_all_weights g tensorList
          (get_manager (.binFile path)))) cm.2 tensorList with
    | err e => rw [hI2] at h2; exact absurd h2 (by simp)
    | panicked => rw [hI2] at h2; exact absurd h2 (by simp)
    | ok inits2 =>
    cases hI3 : gen_initializers g
        (finalize_tensor_data (gather_all_weights g tensorList
          (get_manager .embeddedData))) cm.2 tensorList with
    | err e => rw [hI3] at h3; exact absurd h3 (by simp)
    | panicked => rw [hI3] at h3; exact absurd h3 (by simp)
    | ok inits3 =>
    simp only [hI1] at h1
    simp only [hI2] at h2
    simp only [hI3] at h3
    cases hN : emit_node_protos g (build_node_names g nodeList []) cm.2 nodeList with
    | none =>
      rw [hN] at h1
      exact absurd h1 (by simp)
    | some nps =>
    simp only [hN] at h1 h2 h3
    cases hP : emit_value_infos g cm.2 inputs with
    | none =>
      rw [hP] at h1
      exact absurd h1 (by simp)
    | some ips =>
    simp only [hP] at h1 h2 h3
    cases hV : emit_value_infos g cm.2 (tensors_to_enumerate inputs outputs tensorList) with
    | none =>
      rw [hV] at h1
      exact absurd h1 (by simp)
    | some vis =>
    simp only [hV] at h1 h2 h3
    obtain rfl := (Run.ok.inj h1).symm
    obtain rfl := (Run.ok.inj h2).symm
    obtain rfl := (Run.ok.inj h3).symm
    refine ⟨rfl, rfl, rfl, rfl, rfl, rfl, rfl, rfl, ?_, ?_, rfl, rfl, rfl, rfl⟩
    · exact gen_initializers_skeleton hI1 hI2
    · exact gen_initializers_skeleton hI2 hI3

/-- Witness graph for C7: one constant weight leaf (payload `[7, 9]`), one
declared input, one operation. -/
def Gw7 : Graph :=
  ⟨[.leaf none ⟨.f32, [Dimension.known 2]⟩ (some [7, 9]),
    .leaf (some "x") ⟨.f32, []⟩ none,
    .singleOp none "MatMul" [0, 1] ⟨.f32, []⟩]⟩

/-- The descriptor `Gw7` assembles to, minus the initializer payload. -/
def Gw7graph (payload : TensorPayload) : GraphProto :=
  { name := ""
    node := [{ name := "", input := ["tensor_0", "x"], output := ["y"],
               opType := "MatMul", domain := "ai.onnx" }]
    initializer := [{ name := "tensor_0", dtype := .f32, dims := [2],
                      payload := payload }]
    input := [{ name := "x", info := ⟨.f32, []⟩ }]
    output := [{ name := "y", info := ⟨.f32, []⟩ }]
    valueInfo := [{ name := "tensor_0", info := ⟨.f32, [Dimension.known 2]⟩ }] }

theorem c7_witness :
    (Gw7graph .dropped).node = (Gw7graph (.external 0 2)).node ∧
    (Gw7graph .dropped).initializer.map initializer_skel =
      (Gw7graph (.external 0 2)).initializer.map initializer_skel :=
  have H := c7_strategy_equivalence Gw7 [1] [("y", 2)] [2] [2, 0, 1] "w.bin"
    ⟨2024325, [], Gw7graph .dropped⟩
    ⟨2024325, [], Gw7graph (.external 0 2)⟩
    ⟨2024325, [], Gw7graph (.inline [7, 9])⟩
    (by decide) (by decide) (by decide)
  ⟨H.1, H.2.2.2.2.2.2.2.2.1⟩

/-- If every tensor before `t` in the iteration order yields its initializer
without error and `t`'s initializer computation fails with `e`, the
initializer loop aborts with exactly `e`. -/
theorem gen_initializers_err {g : Graph} {st : ManagerState} {m : NameMap} :
    ∀ {pre : List Nat} {t : Nat} {post : List Nat} {e : Error},
      (∀ u ∈ pre, ∀ nm, alookup m u = some nm →
        ∃ v, get_initializer g st u nm = .ok v) →
      (∀ u ∈ pre, (alookup m u).isSome = true) →
      (∀ nm, alookup m t = some nm → get_initializer g st t nm = .error e) →
      (alookup m t).isSome = true →
      gen_initializers g st m (pre ++ t :: post) = .err e := by
  intro pre
  induction pre with
  | nil =>
    intro t post e _ _ hterr htsome
    obtain ⟨nm, hnm⟩ := Option.isSome_iff_exists.mp htsome
    simp only [List.nil_append, gen_initializers, hnm, hterr nm hnm]
  | cons u rest ih =>
    intro t post e hpre hpresome hterr htsome
    obtain ⟨nm, hnm⟩ := Option.isSome_iff_exists.mp (hpresome u (by simp))
    obtain ⟨v, hv⟩ := hpre u (by simp) nm hnm
    have hrest := @ih t post e (fun u' hu' => hpre u' (by simp [hu']))
      (fun u' hu' => hpresome u' (by simp [hu'])) hterr htsome
    cases v with
    | none =>
      simp only [List.cons_append, gen_initializers, hnm, hv]
      exact hrest
    | some ini =>
      simp only [List.cons_append, gen_initializers, hnm, hv]
      rw [show (rest.append (t :: post)) = rest ++ t :: post from rfl, hrest]

/-- Claim C8: if, under the manager state the strategy accumulated, some
tensor's initializer representation fails with error `e` (and the tensors
iterated before it succeed), `build_proto` returns exactly `.err e` — no
descriptor, no partial result. -/
theorem c8_error_propagation
    (g : Graph) (inputs : List Nat) (outputs : List (String × Nat))
    (ws : WeightStorageStrategy) (nodeList tensorList : List Nat)
    (pre post : List Nat) (t : Nat) (e : Error) (r : Finset String × NameMap)
    (hr : assign_names g outputs tensorList = .ok r)
    (hsplit : tensorList = pre ++ t :: post)
    (hpre : ∀ u ∈ pre, ∀ nm, alookup r.2 u = some nm →
      ∃ v, get_initializer g
        (finalize_tensor_data (gather_all_weights g tensorList (get_manager ws)))
        u nm = .ok v)
    (hterr : ∀ nm, alookup r.2 t = some nm →
      get_initializer g
        (finalize_tensor_data (gather_all_weights g tensorList (get_manager ws)))
        t nm = .error e) :
    build_proto g inputs outputs ws nodeList tensorList = .err e := by
  have hinv := assign_names_ok_inv hr
  set st := finalize_tensor_data (gather_all_weights g tensorList (get_manager ws))
    with hst
  have hgen : gen_initializers g st r.2 tensorList = .err e := by
    rw [hsplit]
    refine gen_initializers_err hpre ?_ hterr ?_
    · intro u hu
      exact hinv.2 u (by rw [hsplit]; simp [hu])
    · exact hinv.2 t (by rw [hsplit]; simp)
  unfold build_proto
  simp only [hr, hgen]

/-- Witness graph for C8: leaf 0 carries payload bytes but its shape has an
unresolved dimension, so its initializer representation fails. -/
def Gw8 : Graph :=
  ⟨[.leaf none ⟨.f32, [Dimension.unresolved]⟩ (some [1, 2, 3]),
    .singleOp none "Relu" [0] ⟨.f32, []⟩]⟩

theorem c8_witness :
    build_proto Gw8 [] [("y", 1)] .none [1] [1, 0] =
      .err .unresolvedDimensionError :=
  c8_error_propagation Gw8 [] [("y", 1)] .none [1] [1, 0] [1] [] 0
    .unresolvedDimensionError
    (insert "tensor_0" (insert "y" (∅ : Finset String)), [(0, "tensor_0"), (1, "y")])
    (by rfl) (by rfl)
    (fun u hu nm hnm => by
      have hu1 : u = 1 := List.mem_singleton.mp hu
      subst hu1
      exact ⟨none, rfl⟩)
    (fun nm hnm => by
      have h' : some "tensor_0" = some nm := hnm
      have hn : nm = "tensor_0" := (Option.some.inj h').symm
      subst hn
      rfl)

/-! ### Claims C9-C10: unchecked name lookups during emission -/

/-- An `Option`-valued traversal succeeds iff every element maps to `some`. -/
theorem mapM_option_some {α β : Type} (f : α → Option β) :
    ∀ l : List α, (∀ a ∈ l, (f a).isSome = true) → ∃ r, l.mapM f = some r := by
  intro l
  induction l with
  | nil => intro _; exact ⟨[], rfl⟩
  | cons a rest ih =>
    intro h
    obtain ⟨b, hb⟩ := Option.isSome_iff_exists.mp (h a (by simp))
    obtain ⟨r, hr⟩ := ih (fun a' ha' => h a' (by simp [ha']))
    refine ⟨b :: r, ?_⟩
    rw [List.mapM_cons, hb, hr]
    rfl

/-- `to_node_proto` succeeds when every input and output tensor of the node
has an assigned name. -/
theorem to_node_proto_some {g : Graph} {tensor_names : NameMap}
    {name : Option String} {n : Nat}
    (hin : ∀ j ∈ get_input_tensors g n, (alookup tensor_names j).isSome = true)
    (hout : ∀ j ∈ get_output_tensors g n, (alookup tensor_names j).isSome = true) :
    (to_node_proto g tensor_names name n).isSome = true := by
  obtain ⟨ins, hins⟩ := mapM_option_some (alookup tensor_names) _ hin
  obtain ⟨outs, houts⟩ := mapM_option_some (alookup tensor_names) _ hout
  unfold to_node_proto
  rw [hins, houts]
  rfl

/-- Claim C9: node emission is safe exactly under the precondition that every
input and output tensor of every listed node has an assigned name (then it
panics on nothing); and concretely, the reachable 2-output operation of `Gc6`
with an unconsumed slot drives `build_proto` into a panic — not an `Err` —
because `to_node_proto` indexes the name table unchecked with the unconsumed
(hence unnamed) output value. -/
theorem c9_node_emission_panic
    (g : Graph) (node_names tensor_names : NameMap) (nodeList : List Nat)
    (hnames : ∀ n ∈ nodeList,
      (∀ j ∈ get_input_tensors g n, (alookup tensor_names j).isSome = true) ∧
      (∀ j ∈ get_output_tensors g n, (alookup tensor_names j).isSome = true)) :
    (∃ l, emit_node_protos g node_names tensor_names nodeList = some l) ∧
    ((3 : Nat) ∈ get_output_tensors Gc6 1 ∧
      (3 : Nat) ∉ collect_tensors Gc6 [("y", 4)] ∧
      build_proto Gc6 [0] [("y", 4)] .none [1, 4] [4, 2, 0] = .panicked) := by
  constructor
  · refine mapM_option_some _ nodeList ?_
    intro n hn
    exact to_node_proto_some (hnames n hn).1 (hnames n hn).2
  · exact ⟨by decide, by decide, by decide⟩

theorem c9_witness :
    (emit_node_protos Gw1 [] [(0, "a"), (1, "y")] [1]).isSome = true ∧
    build_proto Gc6 [0] [("y", 4)] .none [1, 4] [4, 2, 0] = .panicked := by
  have H := c9_node_emission_panic Gw1 [] [(0, "a"), (1, "y")] [1] (by decide)
  obtain ⟨l, hl⟩ := H.1
  exact ⟨by rw [hl]; rfl, H.2.2.2⟩

/-- Graph for C10: declared input 2 is a leaf that is not reachable from the
declared output 1. -/
def Gc10 : Graph :=
  ⟨[.leaf (some "in0") ⟨.f32, []⟩ none,
    .singleOp none "Relu" [0] ⟨.f32, []⟩,
    .leaf (some "in2") ⟨.f32, []⟩ none]⟩

/-- Claim C10: emitting the declared-input list is safe exactly when every
declared input has an assigned name (the table is only populated from the
reachable set); concretely, in `Gc10` the declared input 2 is unreachable
from the output, is never collected, receives no name, and `build_proto`
panics instead of returning an `Err`. -/
theorem c10_unreachable_input_panic
    (g : Graph) (tensor_names : NameMap) (inputs : List Nat)
    (hnames : ∀ t ∈ inputs, (alookup tensor_names t).isSome = true) :
    (∃ l, emit_value_infos g tensor_names inputs = some l) ∧
    ((2 : Nat) ∉ collect_tensors Gc10 [("y", 1)] ∧
      build_proto Gc10 [0, 2] [("y", 1)] .none [1] [1, 0] = .panicked) := by
  constructor
  · refine mapM_option_some _ inputs ?_
    intro t ht
    obtain ⟨nm, hnm⟩ := Option.isSome_iff_exists.mp (hnames t ht)
    rw [hnm]
    rfl
  · exact ⟨by decide, by decide⟩

theorem c10_witness :
    (emit_value_infos Gc10 [(0, "in0")] [0]).isSome = true ∧
    build_proto Gc10 [0, 2] [("y", 1)] .none [1] [1, 0] = .panicked := by
  have H := c10_unreachable_input_panic Gc10 [(0, "in0")] [0] (by decide)
  obtain ⟨l, hl⟩ := H.1
  exact ⟨by rw [hl]; rfl, H.2.2⟩
